import Mathlib

set_option maxRecDepth 100000
set_option maxHeartbeats 1600000

/-!
Verification development for the codex-wrapped core: usage analytics
(aggregation, ranking, streaks, weekday buckets) and the terminal graphics
layer (capability detection, Kitty chunked protocol, iTerm2 inline protocol).
All definitions are shallow embeddings of the TypeScript source; JavaScript
runtime behaviour (string code-unit comparison, decimal printing of numbers,
`Date` UTC parsing of `YYYY-MM-DD` keys, local-time accessors with a fixed
UTC offset) is modelled explicitly.
-/

/-! ## JavaScript string and number primitives -/

/-- Decimal digits of a natural number, most significant first; the fuel
argument only bounds the recursion (`n / 10` shrinks) and `n + 1` is always
enough. Models JavaScript `String(n)` for a non-negative integer. -/
def natToStringAux : ℕ → ℕ → List Char
  | 0, _ => []
  | fuel + 1, n =>
    if n < 10 then [Char.ofNat (48 + n)]
    else natToStringAux fuel (n / 10) ++ [Char.ofNat (48 + n % 10)]

/-- Decimal digit list of a natural number. -/
def natDigits (n : ℕ) : List Char := natToStringAux (n + 1) n

/-- JavaScript `String(n)` for a non-negative integer. -/
def natToString (n : ℕ) : String := ⟨natDigits n⟩

/-- Decimal digit list of an integer (a leading `-` when negative),
modelling JavaScript `String(z)` for an integral number. -/
def intDigits (z : ℤ) : List Char :=
  if z < 0 then '-' :: natDigits z.natAbs else natDigits z.toNat

/-- JavaScript `String(z)` for an integral number. -/
def intToString (z : ℤ) : String := ⟨intDigits z⟩

/-- `String(n).padStart(2, "0")`, as used by `formatDateKey` for months and
days. -/
def pad2 (n : ℕ) : List Char :=
  if (natDigits n).length < 2 then '0' :: natDigits n else natDigits n

/-- JavaScript `<` on strings: lexicographic comparison of code units
(all characters in this development are ASCII, so code points coincide). -/
def charListLtB : List Char → List Char → Bool
  | [], [] => false
  | [], _ :: _ => true
  | _ :: _, [] => false
  | a :: as, b :: bs => if a < b then true else if b < a then false else charListLtB as bs

/-- JavaScript `s < t` on strings. -/
def strLtB (s t : String) : Bool := charListLtB s.data t.data

/-- JavaScript `s.startsWith(p)`. -/
def jsStartsWith (s p : String) : Bool := p.data.isPrefixOf s.data

/-- Splitting a character list at `-` separators, modelling the relevant part
of `"YYYY-MM-DD".split("-")`. -/
def splitOnDash : List Char → List (List Char)
  | [] => [[]]
  | c :: cs =>
    if c = '-' then [] :: splitOnDash cs
    else match splitOnDash cs with
      | [] => [[c]]
      | piece :: rest => (c :: piece) :: rest

/-- Parsing a digit list back to a number (`Number("…")` on an all-digit
string); `none` on an empty or non-digit list. -/
def digitsToNat? (cs : List Char) : Option ℕ :=
  if cs = [] then none
  else if cs.all (fun c => decide (48 ≤ c.toNat) && decide (c.toNat ≤ 57)) then
    some (cs.foldl (fun acc c => acc * 10 + (c.toNat - 48)) 0)
  else none

/-! ## Usage events (§3 UsageEvent) -/

/-- One recorded usage event (`CodexUsageEvent` in the source); the data
model declares all token counts as non-negative integers. -/
structure CodexUsageEvent where
  model : String
  inputTokens : ℕ
  cachedInputTokens : ℕ
  outputTokens : ℕ
  reasoningOutputTokens : ℕ
  totalTokens : ℕ
deriving Repr, DecidableEq

/-- `getEventTotal` from the source: `Math.max(event.totalTokens,
event.inputTokens + event.outputTokens)`. -/
def getEventTotal (event : CodexUsageEvent) : ℕ :=
  max event.totalTokens (event.inputTokens + event.outputTokens)

/-! ## Provider resolution -/

/-- `resolveProviderId` from the source, parameterised by the external
`getModelProvider` collaborator (which returns `"unknown"` when it has no
data). A falsy (empty) or `"unknown"` result falls through to the prefix
check and then to the final fallback, both of which return `"openai"`. -/
def resolveProviderId (getModelProvider : String → String) (modelId : String) : String :=
  let provider := getModelProvider modelId
  if provider != "" && provider != "unknown" then provider
  else if jsStartsWith modelId "gpt" || jsStartsWith modelId "openai" then "openai"
  else "openai"

/-! ## Terminal capability detection (§4.1) -/

/-- The closed `TerminalType` enumeration from the source. -/
inductive TerminalType where
  | ghostty | kitty | iterm | wezterm | konsole | vscode | warp | standard
deriving Repr, DecidableEq

/-- `TerminalInfo` from the source. -/
structure TerminalInfo where
  type : TerminalType
  supportsKittyProtocol : Bool
  supportsITerm2Protocol : Bool
deriving Repr, DecidableEq

/-- The environment variables `detectTerminal` reads. `none` models an unset
variable. -/
structure Env where
  TERM : Option String
  TERM_PROGRAM : Option String
  KITTY_WINDOW_ID : Option String
  KONSOLE_VERSION : Option String
deriving Repr, DecidableEq

/-- JavaScript truthiness of an environment variable: set and non-empty. -/
def envTruthy : Option String → Bool
  | none => false
  | some s => s != ""

/-- `detectTerminal` from the source: a priority-ordered if/else chain over
the environment, defaulting to `standard` with both protocol flags false. -/
def detectTerminal (env : Env) : TerminalInfo :=
  if env.TERM == some "xterm-ghostty" then ⟨.ghostty, true, false⟩
  else if env.TERM == some "xterm-kitty" || envTruthy env.KITTY_WINDOW_ID then ⟨.kitty, true, false⟩
  else if env.TERM_PROGRAM == some "WezTerm" then ⟨.wezterm, true, true⟩
  else if env.TERM_PROGRAM == some "iTerm.app" then ⟨.iterm, false, true⟩
  else if env.TERM_PROGRAM == some "konsole" || envTruthy env.KONSOLE_VERSION then ⟨.konsole, true, false⟩
  else if env.TERM_PROGRAM == some "vscode" then ⟨.vscode, false, true⟩
  else if env.TERM_PROGRAM == some "WarpTerminal" then ⟨.warp, true, false⟩
  else ⟨.standard, false, false⟩

/-- The fixed, ordered signal table of §4.1, written from the spec's words:
each recognized family declares its signal predicate and its static protocol
flags. -/
def detectionTable : List ((Env → Bool) × TerminalInfo) :=
  [ (fun e => e.TERM == some "xterm-ghostty", ⟨.ghostty, true, false⟩),
    (fun e => e.TERM == some "xterm-kitty" || envTruthy e.KITTY_WINDOW_ID, ⟨.kitty, true, false⟩),
    (fun e => e.TERM_PROGRAM == some "WezTerm", ⟨.wezterm, true, true⟩),
    (fun e => e.TERM_PROGRAM == some "iTerm.app", ⟨.iterm, false, true⟩),
    (fun e => e.TERM_PROGRAM == some "konsole" || envTruthy e.KONSOLE_VERSION, ⟨.konsole, true, false⟩),
    (fun e => e.TERM_PROGRAM == some "vscode", ⟨.vscode, false, true⟩),
    (fun e => e.TERM_PROGRAM == some "WarpTerminal", ⟨.warp, true, false⟩) ]

/-- First-match semantics over a signal table; the default is the
"no native image support" family with both flags false. -/
def firstMatch (env : Env) : List ((Env → Bool) × TerminalInfo) → TerminalInfo
  | [] => ⟨.standard, false, false⟩
  | (p, info) :: rest => if p env then info else firstMatch env rest

/-- The spec-side detector: priority-ordered first match over the table. -/
def detectTerminalSpec (env : Env) : TerminalInfo := firstMatch env detectionTable

/-! ## Terminal graphics renderer (§4.2) -/

/-- The base64 alphabet. -/
def base64Alphabet : List Char :=
  "ABCDEFGHIJKLMNOPQRSTUVWXYZabcdefghijklmnopqrstuvwxyz0123456789+/".data

/-- Character for a 6-bit group. -/
def base64Char (n : ℕ) : Char := base64Alphabet.getD n '?'

/-- Base64 encoding (with `=` padding) of a byte list, modelling
`Buffer.toString("base64")`. -/
def base64Encode : List ℕ → List Char
  | [] => []
  | [b1] => [base64Char (b1 / 4), base64Char (b1 % 4 * 16), '=', '=']
  | [b1, b2] =>
      [base64Char (b1 / 4), base64Char (b1 % 4 * 16 + b2 / 16), base64Char (b2 % 16 * 4), '=']
  | b1 :: b2 :: b3 :: rest =>
      base64Char (b1 / 4) :: base64Char (b1 % 4 * 16 + b2 / 16) ::
      base64Char (b2 % 16 * 4 + b3 / 64) :: base64Char (b3 % 64) :: base64Encode rest

/-- One control frame of the Kitty graphics protocol: whether it is the
first frame (which carries `a=T,f=100`), its more-data flag `m`, and its
base64 chunk. -/
structure KittyFrame where
  isFirst : Bool
  m : ℕ
  chunk : List Char
deriving Repr, DecidableEq

/-- The chunking loop of `displayKittyProtocol`: starting at offset `i`, one
frame per loop pass with chunk `base64Data.slice(i, i + 4096)` and more-data
flag 0 exactly when `i + 4096 >= base64Data.length`. The fuel argument only
bounds the iteration count; `i` advances by 4096 each pass, so
`b64.length + 1` passes are always enough. -/
def kittyFramesGo (b64 : List Char) : ℕ → ℕ → List KittyFrame
  | 0, _ => []
  | fuel + 1, i =>
    if i < b64.length then
      ⟨i == 0, if i + 4096 ≥ b64.length then 0 else 1, (b64.drop i).take 4096⟩ ::
        kittyFramesGo b64 fuel (i + 4096)
    else []

/-- The frames `displayKittyProtocol` emits for an image payload. -/
def kittyFrames (pngBuffer : List ℕ) : List KittyFrame :=
  let base64Data := base64Encode pngBuffer
  kittyFramesGo base64Data (base64Data.length + 1) 0

/-- Wire form of one frame: `ESC _G a=T,f=100,m=<m>;<chunk> ESC \` for the
first frame, `ESC _G m=<m>;<chunk> ESC \` for continuations. -/
def frameString (f : KittyFrame) : String :=
  if f.isFirst then
    "\x1b_Ga=T,f=100,m=" ++ natToString f.m ++ ";" ++ (⟨f.chunk⟩ : String) ++ "\x1b\\"
  else
    "\x1b_Gm=" ++ natToString f.m ++ ";" ++ (⟨f.chunk⟩ : String) ++ "\x1b\\"

/-- The stdout writes `displayKittyProtocol` performs: one write per frame,
then a single newline. -/
def kittyWrites (pngBuffer : List ℕ) : List String :=
  (kittyFrames pngBuffer).map frameString ++ ["\n"]

/-- The fixed display filename, as bytes. -/
def iterm2FileName : List ℕ := "codex-wrapped-noyrlimit.png".data.map Char.toNat

/-- The single OSC 1337 frame of `displayITerm2Protocol`. -/
def displayITerm2String (pngBuffer : List ℕ) : String :=
  "\x1b]1337;File=name=" ++ (⟨base64Encode iterm2FileName⟩ : String) ++ ";size=" ++
    natToString pngBuffer.length ++ ";inline=1:" ++
    (⟨base64Encode pngBuffer⟩ : String) ++ "\x07\n"

/-- The stdout writes `displayITerm2Protocol` performs. -/
def iterm2Writes (pngBuffer : List ℕ) : List String := [displayITerm2String pngBuffer]

/-- Performing a list of writes against a fallible output stream: `ok i`
says whether the `i`-th write succeeds. The first failing write throws, so
later writes are not attempted; the result records whether all writes
succeeded together with the writes actually performed. -/
def attemptWrites (ok : ℕ → Bool) : ℕ → List String → Bool × List String
  | _, [] => (true, [])
  | i, w :: ws =>
    if ok i then
      let r := attemptWrites ok (i + 1) ws
      (r.1, w :: r.2)
    else (false, [])

/-- `displayInTerminal` from the source: detect the terminal, prefer the
Kitty protocol, fall back to iTerm2, otherwise perform no write and report
false; an exception thrown by a write is caught and reported as false. -/
def displayInTerminal (env : Env) (pngBuffer : List ℕ) (ok : ℕ → Bool) : Bool × List String :=
  let terminal := detectTerminal env
  if terminal.supportsKittyProtocol then attemptWrites ok 0 (kittyWrites pngBuffer)
  else if terminal.supportsITerm2Protocol then attemptWrites ok 0 (iterm2Writes pngBuffer)
  else (false, [])

/-! ## Usage event aggregation (§4.3) -/

/-- `ModelUsageTotals` from the source. -/
structure ModelUsageTotals where
  inputTokens : ℕ
  cachedInputTokens : ℕ
  outputTokens : ℕ
  reasoningTokens : ℕ
  totalTokens : ℕ
deriving Repr, DecidableEq

/-- The all-zero accumulator `getOrCreateModelUsage` creates lazily. -/
def emptyUsage : ModelUsageTotals := ⟨0, 0, 0, 0, 0⟩

/-- Folding one event into a per-model accumulator (the five `usage.x += …`
statements of the aggregation loop). -/
def addEventToUsage (usage : ModelUsageTotals) (event : CodexUsageEvent) : ModelUsageTotals :=
  { inputTokens := usage.inputTokens + event.inputTokens
    cachedInputTokens := usage.cachedInputTokens + event.cachedInputTokens
    outputTokens := usage.outputTokens + event.outputTokens
    reasoningTokens := usage.reasoningTokens + event.reasoningOutputTokens
    totalTokens := usage.totalTokens + getEventTotal event }

/-- The per-model map as an association list in `Map` insertion order:
`getOrCreateModelUsage` updates an existing entry in place or appends a
fresh zero entry, which the event is then folded into. -/
def updateModelUsage :
    List (String × ModelUsageTotals) → String → CodexUsageEvent → List (String × ModelUsageTotals)
  | [], modelId, event => [(modelId, addEventToUsage emptyUsage event)]
  | (k, usage) :: rest, modelId, event =>
    if k = modelId then (k, addEventToUsage usage event) :: rest
    else (k, usage) :: updateModelUsage rest modelId event

/-- The aggregation loop of `calculateStats`, per-model part. -/
def accumulateModelUsage (events : List CodexUsageEvent) : List (String × ModelUsageTotals) :=
  events.foldl (fun acc event => updateModelUsage acc event.model event) []

/-- `Map.get` over the association list. -/
def lookupUsage : List (String × ModelUsageTotals) → String → Option ModelUsageTotals
  | [], _ => none
  | (k, usage) :: rest, modelId => if k = modelId then some usage else lookupUsage rest modelId

/-- The five grand-total accumulators of the aggregation loop. -/
structure GrandTotals where
  totalInputTokens : ℕ
  totalCachedInputTokens : ℕ
  totalOutputTokens : ℕ
  totalReasoningTokens : ℕ
  totalTokens : ℕ
deriving Repr, DecidableEq

/-- Folding one event into the grand totals. -/
def addEventToGrand (t : GrandTotals) (event : CodexUsageEvent) : GrandTotals :=
  { totalInputTokens := t.totalInputTokens + event.inputTokens
    totalCachedInputTokens := t.totalCachedInputTokens + event.cachedInputTokens
    totalOutputTokens := t.totalOutputTokens + event.outputTokens
    totalReasoningTokens := t.totalReasoningTokens + event.reasoningOutputTokens
    totalTokens := t.totalTokens + getEventTotal event }

/-- The aggregation loop of `calculateStats`, grand-total part. -/
def grandTotals (events : List CodexUsageEvent) : GrandTotals :=
  events.foldl addEventToGrand ⟨0, 0, 0, 0, 0⟩

/-! ## Ranking calculator (§4.4) -/

/-- `ModelStats` entries as pushed by the ranking pass. -/
structure ModelStats where
  id : String
  name : String
  providerId : String
  count : ℕ
  percentage : ℚ
deriving Repr, DecidableEq

/-- `ProviderStats` entries. -/
structure ProviderStats where
  id : String
  name : String
  count : ℕ
  percentage : ℚ
deriving Repr, DecidableEq

/-- `providerCounts.set(providerId, (providerCounts.get(providerId) || 0) +
tokenTotal)` over the association list, appending unseen providers in
encounter order. -/
def bumpProviderCount : List (String × ℕ) → String → ℕ → List (String × ℕ)
  | [], providerId, n => [(providerId, n)]
  | (k, c) :: rest, providerId, n =>
    if k = providerId then (k, c + n) :: rest
    else (k, c) :: bumpProviderCount rest providerId n

/-- One pass of the per-model ranking loop of `calculateStats`: the model's
`tokenTotal` (with the reasoning fallback when the accumulated `totalTokens`
is zero), the `continue` on a zero total, the provider-count bump and the
pushed `ModelStats` entry with percentage 0. -/
def modelStatsStep (resolveProvider displayName : String → String)
    (acc : List (String × ℕ) × List ModelStats) (e : String × ModelUsageTotals) :
    List (String × ℕ) × List ModelStats :=
  let tokenTotal :=
    if e.2.totalTokens > 0 then e.2.totalTokens
    else e.2.inputTokens + e.2.outputTokens + e.2.reasoningTokens
  if tokenTotal ≤ 0 then acc
  else
    let providerId := resolveProviderId resolveProvider e.1
    (bumpProviderCount acc.1 providerId tokenTotal,
     acc.2 ++ [⟨e.1, displayName e.1, providerId, tokenTotal, 0⟩])

/-- The per-model ranking pass of `calculateStats` over the accumulated map. -/
def modelStatsFold (resolveProvider displayName : String → String)
    (entries : List (String × ModelUsageTotals)) : List (String × ℕ) × List ModelStats :=
  entries.foldl (modelStatsStep resolveProvider displayName) ([], [])

/-- JavaScript's stable `sort` with comparator `(a, b) => key(b) - key(a)`:
descending by key, ties keeping encounter order. -/
def sortByCountDesc {α : Type} (key : α → ℕ) (l : List α) : List α :=
  List.insertionSort (fun a b => key b ≤ key a) l

/-- The combined output of the ranking calculator. -/
structure RankingResult where
  topModels : List ModelStats
  topProviders : List ProviderStats
deriving Repr, DecidableEq

/-- The ranking part of `calculateStats` (lines building `percentageDenominator`,
`topModels` and `topProviders`), parameterised by the external resolver and
display-name collaborators. -/
def calculateRankings (resolveProvider displayName providerDisplayName : String → String)
    (events : List CodexUsageEvent) : RankingResult :=
  let totals := grandTotals events
  let pass := modelStatsFold resolveProvider displayName (accumulateModelUsage events)
  let totalModelTokens := (pass.2.map ModelStats.count).sum
  let percentageDenominator := if totals.totalTokens > 0 then totals.totalTokens else totalModelTokens
  { topModels :=
      ((sortByCountDesc ModelStats.count pass.2).take 3).map fun model =>
        { model with percentage :=
            if percentageDenominator > 0 then (model.count : ℚ) / percentageDenominator * 100 else 0 }
    topProviders :=
      ((sortByCountDesc Prod.snd pass.1).take 3).map fun p =>
        ⟨p.1, providerDisplayName p.1, p.2,
         if percentageDenominator > 0 then (p.2 : ℚ) / percentageDenominator * 100 else 0⟩ }

/-! ## JavaScript Date model

`new Date("YYYY-MM-DD")` parses a date-only ISO string as **UTC** midnight
(ECMA-262 date-time string format); the local accessors `getFullYear`,
`getMonth`, `getDate`, `getDay` read the calendar date of the instant
shifted by the zone offset. The proleptic-Gregorian conversion between day
numbers (days since 1970-01-01) and civil triples uses Howard Hinnant's
algorithms with floor divisions (on ℤ, `/` and `%` with a positive literal
divisor are exactly floor division and its remainder). -/

/-- Day number of a civil date: `Date.UTC(y, m - 1, d) / 86400000`. -/
def daysFromCivil (y m d : ℤ) : ℤ :=
  let y' := if m ≤ 2 then y - 1 else y
  let era := y' / 400
  let yoe := y' - era * 400
  let mp := (m + 9) % 12
  let doy := (153 * mp + 2) / 5 + d - 1
  let doe := yoe * 365 + yoe / 4 - yoe / 100 + doy
  era * 146097 + doe - 719468

/-- Day-of-era of a day number. -/
def cfdDoe (z : ℤ) : ℤ := (z + 719468) % 146097

/-- 400-year era of a day number. -/
def cfdEra (z : ℤ) : ℤ := (z + 719468) / 146097

/-- Year-of-era of a day number. -/
def cfdYoe (z : ℤ) : ℤ :=
  (cfdDoe z - cfdDoe z / 1460 + cfdDoe z / 36524 - cfdDoe z / 146096) / 365

/-- Day-of-year (March-based) of a day number. -/
def cfdDoy (z : ℤ) : ℤ := cfdDoe z - (365 * cfdYoe z + cfdYoe z / 4 - cfdYoe z / 100)

/-- March-based month index of a day number. -/
def cfdMp (z : ℤ) : ℤ := (5 * cfdDoy z + 2) / 153

/-- Civil `(year, month, day)` of a day number. -/
def civilFromDays (z : ℤ) : ℤ × ℤ × ℤ :=
  let y := cfdYoe z + cfdEra z * 400
  let m := if cfdMp z < 10 then cfdMp z + 3 else cfdMp z - 9
  let d := cfdDoy z - (153 * cfdMp z + 2) / 5 + 1
  (if m ≤ 2 then y + 1 else y, m, d)

/-- The local calendar day number of the instant `ms`, in a zone sitting at
the fixed offset `tzOffsetMs` east of UTC (`Day(t + offset)` in ECMA-262
terms). -/
def localDayOf (ms tzOffsetMs : ℤ) : ℤ := (ms + tzOffsetMs) / 86400000

/-- `date.getDay()`: the weekday (Sunday = 0) of the local calendar day;
1970-01-01 was a Thursday (weekday 4). -/
def jsGetDay (ms tzOffsetMs : ℤ) : ℤ := (localDayOf ms tzOffsetMs + 4) % 7

/-- The `YYYY-MM-DD` character string of a civil triple, as `formatDateKey`
builds it: unpadded year, month and day padded to two digits. -/
def formatCivil (y m d : ℤ) : List Char :=
  intDigits y ++ '-' :: (pad2 m.toNat ++ '-' :: pad2 d.toNat)

/-- The date key of a day number. -/
def dayKeyChars (day : ℤ) : List Char :=
  formatCivil (civilFromDays day).1 (civilFromDays day).2.1 (civilFromDays day).2.2

/-- The date key of a day number, as a string. -/
def dayKey (day : ℤ) : String := ⟨dayKeyChars day⟩

/-- The civil year of a day number. -/
def yearOfDay (day : ℤ) : ℤ := (civilFromDays day).1

/-- `formatDateKey(date)` from the source for a Date holding `ms`, in a zone
at fixed offset `tzOffsetMs`. -/
def formatDateKeyMs (ms tzOffsetMs : ℤ) : String := dayKey (localDayOf ms tzOffsetMs)

/-- `new Date(key).getTime()` for a `YYYY-MM-DD` date key: UTC midnight of
the civil date. `none` models an invalid date (`NaN`). -/
def parseDateKeyMs? (s : String) : Option ℤ :=
  match (splitOnDash s.data).map digitsToNat? with
  | [some y, some m, some d] => some (daysFromCivil y m d * 86400000)
  | _ => none

/-- The day number a key parses to (0 for unparsable keys; proof-side
helper). -/
def keyDay (k : String) : ℤ := ((parseDateKeyMs? k).getD 0) / 86400000

/-- `Math.round(num / den)` for a positive denominator, computed exactly:
round-half-up of the rational `num / den` is `⌊(2 num + den) / (2 den)⌋`. -/
def roundDiv (num den : ℤ) : ℤ := (2 * num + den) / (2 * den)

/-! ## Temporal activity analyzer (§4.5) -/

/-- The weekday-bucketing loop of `calculateStats`:
`weekdayCounts[new Date(date).getDay()] += count` over the activity map.
The date key is parsed as a **UTC** instant and the weekday read in the
local zone; an unparsable key yields weekday `NaN`, whose bucket update
touches no array slot. -/
def weekdayCountsOf (dailyActivity : List (String × ℕ)) (tzOffsetMs : ℤ) : List ℕ :=
  dailyActivity.foldl
    (fun counts p =>
      match parseDateKeyMs? p.1 with
      | some ms =>
        let w := (jsGetDay ms tzOffsetMs).toNat
        counts.set w (counts.getD w 0 + p.2)
      | none => counts)
    [0, 0, 0, 0, 0, 0, 0]

/-- `WeekdayActivity` from the source. -/
structure WeekdayActivity where
  counts : List ℕ
  mostActiveDay : ℕ
  mostActiveDayName : String
  maxCount : ℕ
deriving Repr, DecidableEq

/-- The weekday name table of `buildWeekdayActivity`. -/
def WEEKDAY_NAMES_FULL : List String :=
  ["Sunday", "Monday", "Tuesday", "Wednesday", "Thursday", "Friday", "Saturday"]

/-- `buildWeekdayActivity` from the source: linear scan for the peak bucket
with a strict comparison, so ties resolve to the lowest index. -/
def buildWeekdayActivity (counts : List ℕ) : WeekdayActivity :=
  let pick := (List.range 7).foldl
    (fun (acc : ℕ × ℕ) i => if counts.getD i 0 > acc.2 then (i, counts.getD i 0) else acc)
    (0, 0)
  ⟨counts, pick.1, WEEKDAY_NAMES_FULL.getD pick.1 "", pick.2⟩

/-- The day-difference test of the max-streak loop:
`Math.round((curr - prev) / 86400000) === 1`, where both keys are parsed as
UTC instants; a `NaN` parse makes the comparison false. -/
def diffDaysIsOne (prev curr : String) : Bool :=
  match parseDateKeyMs? prev, parseDateKeyMs? curr with
  | some p, some c => roundDiv (c - p) 86400000 == 1
  | _, _ => false

/-- The loop state of `calculateStreaks`. -/
structure StreakAcc where
  tempStreak : ℕ
  tempStreakStart : ℕ
  maxStreak : ℕ
  maxStreakStart : ℕ
  maxStreakEnd : ℕ
deriving Repr, DecidableEq

/-- The `for (let i = 1; i < activeDates.length; i++)` loop of
`calculateStreaks`: `prev` is `activeDates[i-1]`, the list argument holds
the dates from index `i` on; `maxStreak` is bumped (with its index range)
only when the grown `tempStreak` strictly exceeds it. -/
def streaksLoop (prev : String) (i : ℕ) (acc : StreakAcc) : List String → StreakAcc
  | [] => acc
  | curr :: rest =>
    if diffDaysIsOne prev curr then
      let t := acc.tempStreak + 1
      if t > acc.maxStreak then
        streaksLoop curr (i + 1) ⟨t, acc.tempStreakStart, t, acc.tempStreakStart, i⟩ rest
      else streaksLoop curr (i + 1) { acc with tempStreak := t } rest
    else streaksLoop curr (i + 1) { acc with tempStreak := 1, tempStreakStart := i } rest

/-- The `while` loop of `countStreakBackwards`: step back 24 h at a time
while the local date key stays in the activity map. Each successful pass
finds a distinct earlier key, so the JS loop runs at most `|map| + 1`
passes; the fuel argument makes that bound explicit. -/
def countBackLoop (hasKey : String → Bool) (tzOffsetMs : ℤ) : ℕ → ℤ → ℕ → ℕ
  | 0, _, streak => streak
  | fuel + 1, checkMs, streak =>
    let prevMs := checkMs - 24 * 60 * 60 * 1000
    if hasKey (formatDateKeyMs prevMs tzOffsetMs) then
      countBackLoop hasKey tzOffsetMs fuel prevMs (streak + 1)
    else streak

/-- `countStreakBackwards(dailyActivity, startDate)` from the source,
starting at streak 1 for the anchor day itself. -/
def countStreakBackwards (dailyActivity : List (String × ℕ)) (startMs tzOffsetMs : ℤ) : ℕ :=
  countBackLoop (fun k => (dailyActivity.lookup k).isSome) tzOffsetMs
    (dailyActivity.length + 1) startMs 1

/-- The result record of `calculateStreaks` (the `Set` of max-streak days as
a list in insertion order). -/
structure StreakResult where
  maxStreak : ℕ
  currentStreak : ℕ
  maxStreakDays : List String
deriving Repr, DecidableEq

/-- JavaScript's default `Array.prototype.sort()`: ascending code-unit
order, stable (map keys are distinct here, so any correct ascending sort
agrees). -/
def jsSortStrings (l : List String) : List String :=
  List.insertionSort (fun a b => strLtB b a = false) l

/-- `calculateStreaks(dailyActivity, year)` from the source, with the
ambient clock and zone made explicit (`nowMs` is `Date.now()`, `tzOffsetMs`
the fixed zone offset): year-filtered sorted keys feed the max-streak loop,
while the current streak walks the **whole** map backwards from today, or
yesterday. -/
def calculateStreaks (dailyActivity : List (String × ℕ)) (year nowMs tzOffsetMs : ℤ) :
    StreakResult :=
  let activeDates := jsSortStrings
    ((dailyActivity.map Prod.fst).filter (fun date => jsStartsWith date (intToString year)))
  match activeDates with
  | [] => ⟨0, 0, []⟩
  | first :: rest =>
    let acc := streaksLoop first 1 ⟨1, 0, 1, 0, 0⟩ rest
    let maxStreakDays :=
      (List.range' acc.maxStreakStart (acc.maxStreakEnd - acc.maxStreakStart + 1)).map
        (fun i => (first :: rest).getD i "")
    let today := formatDateKeyMs nowMs tzOffsetMs
    let yesterday := formatDateKeyMs (nowMs - 24 * 60 * 60 * 1000) tzOffsetMs
    let currentStreak :=
      if (dailyActivity.lookup today).isSome then
        countStreakBackwards dailyActivity nowMs tzOffsetMs
      else if (dailyActivity.lookup yesterday).isSome then
        countStreakBackwards dailyActivity (nowMs - 24 * 60 * 60 * 1000) tzOffsetMs
      else 0
    ⟨acc.maxStreak, currentStreak, maxStreakDays⟩

/-! ## Proof-side run structure of day numbers -/

/-- The max-streak loop at day-number level (proof-side helper): `temp` is
the length of the run ending at `prev`, `best` the maximum so far. -/
def dayGo : ℤ → ℕ → ℕ → List ℤ → ℕ
  | _, _, best, [] => best
  | prev, temp, best, d :: rest =>
    if d - prev = 1 then dayGo d (temp + 1) (max best (temp + 1)) rest
    else dayGo d 1 best rest

/-- Longest run of consecutive day numbers over a sorted list (proof-side
helper). -/
def dayRunMax : List ℤ → ℕ
  | [] => 0
  | d :: rest => dayGo d 1 1 rest

/-- Length of the initial chain of consecutive successors of `prev`
(proof-side helper). -/
def csl : ℤ → List ℤ → ℕ
  | _, [] => 0
  | prev, d :: rest => if d = prev + 1 then csl d rest + 1 else 0

/-- Day numbers of all activity keys in ascending key order (proof-side
helper describing the run structure of the whole map). -/
def sortedDaysOf (dailyActivity : List (String × ℕ)) : List ℤ :=
  (jsSortStrings (dailyActivity.map Prod.fst)).map keyDay

/-- Length of the longest run of calendar-consecutive active days over the
whole map — the "historical maximum run" of the streak invariant. -/
def histMaxRun (dailyActivity : List (String × ℕ)) : ℕ :=
  dayRunMax (sortedDaysOf dailyActivity)

/-! ## Proof-side characterisations of the aggregation fold -/

/-- Componentwise sum of two accumulators (proof-side helper). -/
def addUsage (u v : ModelUsageTotals) : ModelUsageTotals :=
  ⟨u.inputTokens + v.inputTokens, u.cachedInputTokens + v.cachedInputTokens,
   u.outputTokens + v.outputTokens, u.reasoningTokens + v.reasoningTokens,
   u.totalTokens + v.totalTokens⟩

/-- The accumulator a list of events folds to (proof-side helper):
componentwise sums, with the effective per-event total in the last field. -/
def usageOfEvents (l : List CodexUsageEvent) : ModelUsageTotals :=
  ⟨(l.map CodexUsageEvent.inputTokens).sum,
   (l.map CodexUsageEvent.cachedInputTokens).sum,
   (l.map CodexUsageEvent.outputTokens).sum,
   (l.map CodexUsageEvent.reasoningOutputTokens).sum,
   (l.map getEventTotal).sum⟩

/-- Folding a list of events into one optional accumulator slot, starting
from the slot's current state (proof-side helper describing what the map
fold does at a single key). -/
def applyEvents (o : Option ModelUsageTotals) (l : List CodexUsageEvent) : Option ModelUsageTotals :=
  l.foldl (fun o event => some (addEventToUsage (o.getD emptyUsage) event)) o

-- ===================== Theorems =====================

/-- Empty frame list once the offset has passed the end of the data. -/
theorem kittyFramesGo_stop (b64 : List Char) (fuel i : ℕ) (h : ¬ i < b64.length) :
    kittyFramesGo b64 fuel i = [] := by
  cases fuel <;> simp [kittyFramesGo, h]

/-- Core specification of the chunking loop, by induction on the fuel. -/
theorem kittyFramesGo_spec (b64 : List Char) :
    ∀ (fuel i : ℕ), b64.length ≤ i + 4096 * fuel → i < b64.length →
      (kittyFramesGo b64 fuel i).length = (b64.length - i + 4095) / 4096 ∧
      (∀ f ∈ kittyFramesGo b64 fuel i, f.chunk.length ≤ 4096) ∧
      (∀ j : ℕ, j + 1 < (kittyFramesGo b64 fuel i).length →
        ((kittyFramesGo b64 fuel i).getD j ⟨false, 0, []⟩).m = 1) ∧
      (∀ j : ℕ, j + 1 = (kittyFramesGo b64 fuel i).length →
        ((kittyFramesGo b64 fuel i).getD j ⟨false, 0, []⟩).m = 0) := by
  intro fuel
  induction fuel with
  | zero => intro i hfuel hi; omega
  | succ fuel ih =>
    intro i hfuel hi
    by_cases hlast : i + 4096 ≥ b64.length
    · have hrest : kittyFramesGo b64 fuel (i + 4096) = [] :=
        kittyFramesGo_stop b64 fuel (i + 4096) (by omega)
      simp only [kittyFramesGo, if_pos hi, if_pos hlast, hrest]
      refine ⟨by simp; omega, ?_, ?_, ?_⟩
      · intro f hf
        simp at hf
        subst hf
        simp [List.length_take]
      · intro j hj; simp at hj
      · intro j hj
        simp at hj
        subst hj
        simp
    · have hfuel' : b64.length ≤ (i + 4096) + 4096 * fuel := by omega
      have hi' : i + 4096 < b64.length := by omega
      obtain ⟨ihlen, ihchunk, ihmid, ihlast'⟩ := ih (i + 4096) hfuel' hi'
      simp only [kittyFramesGo, if_pos hi, if_neg hlast]
      refine ⟨by simp [ihlen]; omega, ?_, ?_, ?_⟩
      · intro f hf
        simp only [List.mem_cons] at hf
        rcases hf with hf | hf
        · subst hf; simp [List.length_take]
        · exact ihchunk f hf
      · intro j hj
        cases j with
        | zero => simp
        | succ j =>
          simp only [List.length_cons] at hj
          simpa using ihmid j (by omega)
      · intro j hj
        cases j with
        | zero =>
          simp only [List.length_cons] at hj
          have : kittyFramesGo b64 fuel (i + 4096) = [] := by
            cases h : kittyFramesGo b64 fuel (i + 4096) with
            | nil => rfl
            | cons a l => rw [h] at hj; simp at hj
          rw [this] at ihlen
          simp at ihlen
          omega
        | succ j =>
          simp only [List.length_cons] at hj
          simpa using ihlast' j (by omega)

/-- C8: for every image payload, protocol A emits `ceil(base64Length / 4096)`
frames, every chunk holds at most 4096 base64 characters, every frame except
the last carries more-data flag `m = 1`, and the last frame carries `m = 0`. -/
theorem kittyFrames_chunking (pngBuffer : List ℕ) :
    (kittyFrames pngBuffer).length = ((base64Encode pngBuffer).length + 4095) / 4096 ∧
    (∀ f ∈ kittyFrames pngBuffer, f.chunk.length ≤ 4096) ∧
    (∀ j : ℕ, j + 1 < (kittyFrames pngBuffer).length →
      ((kittyFrames pngBuffer).getD j ⟨false, 0, []⟩).m = 1) ∧
    (∀ j : ℕ, j + 1 = (kittyFrames pngBuffer).length →
      ((kittyFrames pngBuffer).getD j ⟨false, 0, []⟩).m = 0) := by
  by_cases h0 : (base64Encode pngBuffer).length = 0
  · have : kittyFrames pngBuffer = [] := by
      unfold kittyFrames
      exact kittyFramesGo_stop _ _ _ (by omega)
    rw [this]
    refine ⟨by simp [h0], by simp, by simp, by intro j hj; simp at hj⟩
  · have h := kittyFramesGo_spec (base64Encode pngBuffer)
      ((base64Encode pngBuffer).length + 1) 0 (by omega) (by omega)
    unfold kittyFrames
    simpa using h

/-- Witness for C8: a 3-byte payload has a 4-character base64 encoding, hence
a single frame carrying `m = 0`. -/
theorem kittyFrames_chunking_witness :
    ((kittyFrames [137, 80, 78]).getD 0 ⟨false, 0, []⟩).m = 0 ∧
    (kittyFrames [137, 80, 78]).length = 1 :=
  ⟨(kittyFrames_chunking [137, 80, 78]).2.2.2 0 (by decide), by decide⟩

/-- C2 counterexample: a zero-length payload produces no frame at all through
protocol A (the chunk loop body never runs on empty base64 data), refuting
"exactly one frame with `m = 0` and an empty chunk". -/
theorem kittyFrames_empty_counterexample :
    kittyFrames [] = [] ∧ (kittyFrames []).length ≠ 1 := by
  constructor <;> decide

/-- C2 amended: rendering a zero-length image payload through protocol A
emits no frame; the only write performed is the single terminating newline. -/
theorem kittyFrames_empty :
    kittyFrames [] = [] ∧ kittyWrites [] = ["\n"] := by
  constructor <;> decide

/-- A successful batch of writes means every write in range succeeded. -/
theorem attemptWrites_all_ok (ok : ℕ → Bool) :
    ∀ (ws : List String) (i : ℕ), (attemptWrites ok i ws).1 = true →
      ∀ j < ws.length, ok (i + j) = true := by
  intro ws
  induction ws with
  | nil => intro i _ j hj; simp at hj
  | cons w ws ih =>
    intro i h j hj
    by_cases hok : ok i
    · cases j with
      | zero => simpa using hok
      | succ j =>
        simp only [attemptWrites, if_pos hok] at h
        have := ih (i + 1) h j (by simpa using hj)
        simpa [Nat.add_assoc, Nat.add_comm 1 j] using this
    · simp [attemptWrites, hok] at h

/-- C7: the render operation returns a plain boolean outcome; with a
capability whose two protocol flags are both false it performs no write and
returns false, and a failing write during either protocol makes the outcome
false (equivalently: a true outcome means every write of the chosen protocol
succeeded) rather than propagating the failure. -/
theorem displayInTerminal_error_handling (env : Env) (pngBuffer : List ℕ) (ok : ℕ → Bool) :
    ((detectTerminal env).supportsKittyProtocol = false →
      (detectTerminal env).supportsITerm2Protocol = false →
      displayInTerminal env pngBuffer ok = (false, [])) ∧
    ((displayInTerminal env pngBuffer ok).1 = true →
      ∀ j < (if (detectTerminal env).supportsKittyProtocol then kittyWrites pngBuffer
             else iterm2Writes pngBuffer).length, ok j = true) := by
  constructor
  · intro h1 h2
    simp [displayInTerminal, h1, h2]
  · intro h j hj
    by_cases hk : (detectTerminal env).supportsKittyProtocol
    · simp only [displayInTerminal, if_pos hk] at h
      rw [if_pos hk] at hj
      simpa using attemptWrites_all_ok ok (kittyWrites pngBuffer) 0 h j hj
    · rw [if_neg hk] at hj
      by_cases hi : (detectTerminal env).supportsITerm2Protocol
      · simp only [displayInTerminal, if_neg hk, if_pos hi] at h
        simpa using attemptWrites_all_ok ok (iterm2Writes pngBuffer) 0 h j hj
      · simp [displayInTerminal, hk, hi] at h

/-- Witness for C7: in an empty environment the default capability has both
flags false, so rendering writes nothing and returns false. -/
theorem displayInTerminal_error_handling_witness :
    displayInTerminal ⟨none, none, none, none⟩ [1, 2] (fun _ => true) = (false, []) :=
  (displayInTerminal_error_handling ⟨none, none, none, none⟩ [1, 2] (fun _ => true)).1 rfl rfl

/-- C9: capability detection is the priority-ordered first match over the
fixed signal table (first recognized signal determines the family and its
static flags), and an environment with no recognized signal yields the
default `standard` family with both protocol flags false. -/
theorem detectTerminal_firstMatch (env : Env) :
    detectTerminal env = detectTerminalSpec env ∧
    ((detectionTable.all fun s => !s.1 env) = true →
      detectTerminal env = ⟨.standard, false, false⟩) := by
  constructor
  · simp only [detectTerminal, detectTerminalSpec, detectionTable, firstMatch]
  · intro h
    simp only [detectionTable, List.all_cons, List.all_nil, Bool.and_eq_true,
      Bool.not_eq_true'] at h
    obtain ⟨h1, h2, h3, h4, h5, h6, h7, -⟩ := h
    simp [detectTerminal, h1, h2, h3, h4, h5, h6, h7]

/-- Witness for C9: the empty environment matches no signal and detects as
`standard` with both flags false. -/
theorem detectTerminal_firstMatch_witness :
    detectTerminal ⟨none, none, none, none⟩ = ⟨.standard, false, false⟩ :=
  (detectTerminal_firstMatch ⟨none, none, none, none⟩).2 (by decide)

/-- C6: for every usage event, `getEventTotal` equals
`max(totalTokens, inputTokens + outputTokens)`; it never undercounts
`inputTokens + outputTokens`, and it equals `totalTokens` exactly when
`totalTokens` is correctly populated (at least `inputTokens + outputTokens`). -/
theorem getEventTotal_spec (event : CodexUsageEvent) :
    getEventTotal event = max event.totalTokens (event.inputTokens + event.outputTokens) ∧
    event.inputTokens + event.outputTokens ≤ getEventTotal event ∧
    (event.inputTokens + event.outputTokens ≤ event.totalTokens →
      getEventTotal event = event.totalTokens) := by
  refine ⟨rfl, le_max_right _ _, fun h => ?_⟩
  simp [getEventTotal, Nat.max_eq_left h]

/-- Witness for C6 at a concrete event with a populated total. -/
theorem getEventTotal_spec_witness :
    getEventTotal ⟨"gpt-5", 3, 1, 4, 2, 9⟩ = 9 := by
  have h := (getEventTotal_spec ⟨"gpt-5", 3, 1, 4, 2, 9⟩).2.2 (by decide)
  simpa using h

/-- C10: whenever the external provider resolver yields no provider (a falsy
string) or the string "unknown", `resolveProviderId` returns "openai" — both
the gpt/openai prefix branch and the final fallback return "openai" — and in
every case the resolved provider id is never the string "unknown". -/
theorem resolveProviderId_fallback (getModelProvider : String → String) (modelId : String) :
    ((getModelProvider modelId = "" ∨ getModelProvider modelId = "unknown") →
      resolveProviderId getModelProvider modelId = "openai") ∧
    resolveProviderId getModelProvider modelId ≠ "unknown" := by
  constructor
  · intro h
    rcases h with h | h <;>
      · simp only [resolveProviderId, h]
        split <;> simp_all
  · simp only [resolveProviderId]
    split
    · rename_i h
      simp only [Bool.and_eq_true, bne_iff_ne, ne_eq] at h
      exact h.2
    · split <;> simp

/-- Witness for C10: a resolver that answers "unknown" for every model id
makes `resolveProviderId` answer "openai" on a non-gpt model id. -/
theorem resolveProviderId_fallback_witness :
    resolveProviderId (fun _ => "unknown") "claude-opus" = "openai" :=
  (resolveProviderId_fallback (fun _ => "unknown") "claude-opus").1 (Or.inr rfl)

/-- Looking a model up after one map update: the updated key holds its old
accumulator (or a fresh zero one) with the event folded in; other keys are
untouched. -/
theorem lookupUsage_updateModelUsage (acc : List (String × ModelUsageTotals))
    (modelId key : String) (event : CodexUsageEvent) :
    lookupUsage (updateModelUsage acc modelId event) key =
      if modelId = key then some (addEventToUsage ((lookupUsage acc key).getD emptyUsage) event)
      else lookupUsage acc key := by
  induction acc with
  | nil =>
    by_cases h : modelId = key <;> simp [updateModelUsage, lookupUsage, h]
  | cons p rest ih =>
    obtain ⟨k, usage⟩ := p
    by_cases hk : k = modelId
    · subst hk
      by_cases h : k = key <;> simp [updateModelUsage, lookupUsage, h]
    · simp only [updateModelUsage, if_neg hk]
      by_cases h : k = key
      · have hmk : ¬ modelId = key := fun hc => hk (h.trans hc.symm)
        simp [lookupUsage, h, hmk]
      · simp [lookupUsage, h, ih]

/-- Unfolding `applyEvents` by one event. -/
theorem applyEvents_cons (o : Option ModelUsageTotals) (event : CodexUsageEvent)
    (l : List CodexUsageEvent) :
    applyEvents o (event :: l) = applyEvents (some (addEventToUsage (o.getD emptyUsage) event)) l :=
  rfl

/-- What the whole aggregation fold leaves at one key: exactly the events of
that model, folded in encounter order into the key's slot. -/
theorem lookupUsage_foldl (l : List CodexUsageEvent)
    (acc : List (String × ModelUsageTotals)) (modelId : String) :
    lookupUsage (l.foldl (fun acc event => updateModelUsage acc event.model event) acc) modelId =
      applyEvents (lookupUsage acc modelId) (l.filter (fun e => e.model == modelId)) := by
  induction l generalizing acc with
  | nil => simp [applyEvents]
  | cons e l ih =>
    simp only [List.foldl_cons, List.filter_cons]
    by_cases h : e.model = modelId
    · rw [ih, lookupUsage_updateModelUsage]
      simp [h, applyEvents_cons]
    · rw [ih, lookupUsage_updateModelUsage]
      simp [h]

/-- Folding events into an accumulator sums the components. -/
theorem foldl_addEventToUsage (l : List CodexUsageEvent) (u : ModelUsageTotals) :
    l.foldl addEventToUsage u = addUsage u (usageOfEvents l) := by
  induction l generalizing u with
  | nil =>
    simp only [List.foldl_nil, usageOfEvents, List.map_nil, List.sum_nil, addUsage]
    simp
  | cons e l ih =>
    simp only [List.foldl_cons, ih, addEventToUsage, addUsage, usageOfEvents, List.map_cons,
      List.sum_cons, ModelUsageTotals.mk.injEq]
    refine ⟨?_, ?_, ?_, ?_, ?_⟩ <;> omega

/-- `applyEvents` from an occupied slot folds the events into it. -/
theorem applyEvents_some (u : ModelUsageTotals) (l : List CodexUsageEvent) :
    applyEvents (some u) l = some (l.foldl addEventToUsage u) := by
  induction l generalizing u with
  | nil => rfl
  | cons e l ih =>
    rw [applyEvents_cons]
    simp only [Option.getD_some]
    rw [ih]
    rfl

/-- `applyEvents` from an empty slot: nothing when there is no event, the
componentwise sums otherwise. -/
theorem applyEvents_none (l : List CodexUsageEvent) :
    applyEvents none l = if l = [] then none else some (usageOfEvents l) := by
  cases l with
  | nil => simp [applyEvents]
  | cons e l =>
    rw [applyEvents_cons]
    simp only [Option.getD_none]
    rw [applyEvents_some]
    have h := foldl_addEventToUsage (e :: l) emptyUsage
    simp only [List.foldl_cons] at h
    rw [h]
    simp [addUsage, emptyUsage]

/-- The grand-total accumulators are the componentwise sums over the events. -/
theorem grandTotals_eq (l : List CodexUsageEvent) :
    grandTotals l =
      ⟨(l.map CodexUsageEvent.inputTokens).sum,
       (l.map CodexUsageEvent.cachedInputTokens).sum,
       (l.map CodexUsageEvent.outputTokens).sum,
       (l.map CodexUsageEvent.reasoningOutputTokens).sum,
       (l.map getEventTotal).sum⟩ := by
  suffices hgen : ∀ (t : GrandTotals), l.foldl addEventToGrand t =
      ⟨t.totalInputTokens + (l.map CodexUsageEvent.inputTokens).sum,
       t.totalCachedInputTokens + (l.map CodexUsageEvent.cachedInputTokens).sum,
       t.totalOutputTokens + (l.map CodexUsageEvent.outputTokens).sum,
       t.totalReasoningTokens + (l.map CodexUsageEvent.reasoningOutputTokens).sum,
       t.totalTokens + (l.map getEventTotal).sum⟩ by
    simpa [grandTotals] using hgen ⟨0, 0, 0, 0, 0⟩
  induction l with
  | nil => intro t; simp
  | cons e l ih =>
    intro t
    simp only [List.foldl_cons, ih, addEventToGrand, List.map_cons, List.sum_cons,
      GrandTotals.mk.injEq]
    omega

/-- C5: usage-event aggregation is order-independent — folding any
permutation of an event sequence yields the same grand totals and, for every
model id, the same accumulated `ModelUsageTotals`. -/
theorem aggregation_order_independent (l₁ l₂ : List CodexUsageEvent) (h : l₁.Perm l₂) :
    grandTotals l₁ = grandTotals l₂ ∧
    ∀ modelId : String,
      lookupUsage (accumulateModelUsage l₁) modelId =
        lookupUsage (accumulateModelUsage l₂) modelId := by
  constructor
  · rw [grandTotals_eq l₁, grandTotals_eq l₂]
    simp only [GrandTotals.mk.injEq]
    exact ⟨((h.map _).sum_eq), ((h.map _).sum_eq), ((h.map _).sum_eq),
      ((h.map _).sum_eq), ((h.map _).sum_eq)⟩
  · intro modelId
    have e₁ := lookupUsage_foldl l₁ [] modelId
    have e₂ := lookupUsage_foldl l₂ [] modelId
    simp only [lookupUsage] at e₁ e₂
    rw [accumulateModelUsage, e₁, accumulateModelUsage, e₂]
    have hp : (l₁.filter (fun e => e.model == modelId)).Perm
        (l₂.filter (fun e => e.model == modelId)) := h.filter _
    rw [applyEvents_none, applyEvents_none]
    by_cases hnil : l₁.filter (fun e => e.model == modelId) = []
    · rw [hnil] at hp
      have := hp.symm.eq_nil
      simp [hnil, this]
    · have hnil₂ : l₂.filter (fun e => e.model == modelId) ≠ [] := by
        intro hc
        rw [hc] at hp
        exact hnil hp.eq_nil
      rw [if_neg hnil, if_neg hnil₂]
      have : usageOfEvents (l₁.filter (fun e => e.model == modelId)) =
          usageOfEvents (l₂.filter (fun e => e.model == modelId)) := by
        simp only [usageOfEvents, ModelUsageTotals.mk.injEq]
        exact ⟨(hp.map _).sum_eq, (hp.map _).sum_eq, (hp.map _).sum_eq,
          (hp.map _).sum_eq, (hp.map _).sum_eq⟩
      rw [this]

/-- Witness for C5: aggregating `[e1, e2, e3]` and `[e3, e1, e2]` yields
identical grand totals. -/
theorem aggregation_order_independent_witness :
    grandTotals [⟨"gpt-5", 1, 2, 3, 4, 10⟩, ⟨"o3", 5, 0, 1, 0, 0⟩, ⟨"gpt-5", 2, 2, 2, 2, 8⟩] =
      grandTotals [⟨"gpt-5", 2, 2, 2, 2, 8⟩, ⟨"gpt-5", 1, 2, 3, 4, 10⟩, ⟨"o3", 5, 0, 1, 0, 0⟩] :=
  (aggregation_order_independent _ _ (by decide)).1

/-- One map update adds the event's effective total to the summed
accumulated totals. -/
theorem sum_updateModelUsage (acc : List (String × ModelUsageTotals)) (modelId : String)
    (event : CodexUsageEvent) :
    ((updateModelUsage acc modelId event).map (fun p => p.2.totalTokens)).sum =
      (acc.map (fun p => p.2.totalTokens)).sum + getEventTotal event := by
  induction acc with
  | nil => simp [updateModelUsage, addEventToUsage, emptyUsage]
  | cons p rest ih =>
    obtain ⟨k, usage⟩ := p
    by_cases hk : k = modelId
    · subst hk
      have hstep : updateModelUsage ((k, usage) :: rest) k event =
          (k, addEventToUsage usage event) :: rest := by
        simp [updateModelUsage]
      rw [hstep]
      simp only [List.map_cons, List.sum_cons, addEventToUsage]
      omega
    · simp only [updateModelUsage, if_neg hk, List.map_cons, List.sum_cons, ih]
      omega

/-- The accumulated per-model effective totals sum to the grand effective
total. -/
theorem sum_accumulateModelUsage (events : List CodexUsageEvent) :
    ((accumulateModelUsage events).map (fun p => p.2.totalTokens)).sum =
      (grandTotals events).totalTokens := by
  rw [grandTotals_eq]
  suffices hgen : ∀ acc : List (String × ModelUsageTotals),
      ((events.foldl (fun acc event => updateModelUsage acc event.model event) acc).map
          (fun p => p.2.totalTokens)).sum =
        (acc.map (fun p => p.2.totalTokens)).sum + (events.map getEventTotal).sum by
    simpa [accumulateModelUsage] using hgen []
  induction events with
  | nil => intro acc; simp
  | cons e l ih =>
    intro acc
    simp only [List.foldl_cons, ih, sum_updateModelUsage, List.map_cons, List.sum_cons]
    omega

/-- Bumping a provider bucket adds the amount to the summed provider counts. -/
theorem sum_bumpProviderCount (pc : List (String × ℕ)) (providerId : String) (n : ℕ) :
    ((bumpProviderCount pc providerId n).map Prod.snd).sum = (pc.map Prod.snd).sum + n := by
  induction pc with
  | nil => simp [bumpProviderCount]
  | cons p rest ih =>
    obtain ⟨k, c⟩ := p
    by_cases hk : k = providerId
    · subst hk
      have hstep : bumpProviderCount ((k, c) :: rest) k n = (k, c + n) :: rest := by
        simp [bumpProviderCount]
      rw [hstep]
      simp only [List.map_cons, List.sum_cons]
      omega
    · simp only [bumpProviderCount, if_neg hk, List.map_cons, List.sum_cons, ih]
      omega

/-- When every accumulated model has a positive effective total, the ranking
pass takes the primary branch for every model: the pushed counts are exactly
the accumulated totals, and the provider counts sum to the same amount. -/
theorem modelStatsFold_go (resolveProvider displayName : String → String) :
    ∀ (entries : List (String × ModelUsageTotals)) (acc : List (String × ℕ) × List ModelStats),
      (∀ p ∈ entries, 0 < p.2.totalTokens) →
      (entries.foldl (modelStatsStep resolveProvider displayName) acc).2.map ModelStats.count =
        acc.2.map ModelStats.count ++ entries.map (fun p => p.2.totalTokens) ∧
      ((entries.foldl (modelStatsStep resolveProvider displayName) acc).1.map Prod.snd).sum =
        (acc.1.map Prod.snd).sum + (entries.map (fun p => p.2.totalTokens)).sum := by
  intro entries
  induction entries with
  | nil => intro acc _; simp
  | cons e l ih =>
    intro acc hpos'
    have he : 0 < e.2.totalTokens := hpos' e (List.mem_cons_self e l)
    have hstep : modelStatsStep resolveProvider displayName acc e =
        (bumpProviderCount acc.1 (resolveProviderId resolveProvider e.1) e.2.totalTokens,
         acc.2 ++ [⟨e.1, displayName e.1, resolveProviderId resolveProvider e.1,
           e.2.totalTokens, 0⟩]) := by
      simp only [modelStatsStep, if_pos he]
      rw [if_neg (by omega)]
    obtain ⟨ih1, ih2⟩ := ih (modelStatsStep resolveProvider displayName acc e)
      (fun p hp => hpos' p (List.mem_cons_of_mem e hp))
    constructor
    · rw [List.foldl_cons, ih1, hstep]
      simp
    · rw [List.foldl_cons, ih2, hstep]
      simp only [List.map_cons, List.sum_cons]
      rw [sum_bumpProviderCount]
      omega

/-- When every accumulated model has a positive effective total, the pushed
counts are exactly the accumulated totals and the provider counts sum to the
same amount. -/
theorem modelStatsFold_counts (resolveProvider displayName : String → String)
    (entries : List (String × ModelUsageTotals))
    (hpos : ∀ p ∈ entries, 0 < p.2.totalTokens) :
    (modelStatsFold resolveProvider displayName entries).2.map ModelStats.count =
      entries.map (fun p => p.2.totalTokens) ∧
    ((modelStatsFold resolveProvider displayName entries).1.map Prod.snd).sum =
      (entries.map (fun p => p.2.totalTokens)).sum := by
  have h := modelStatsFold_go resolveProvider displayName entries ([], []) hpos
  simpa [modelStatsFold] using h

/-- C1 counterexample: with a reasoning-only model (zero effective total,
positive reasoning tokens) next to a one-token model, the grand total is
positive (so the denominator is the grand total), yet the reasoning-only
model's ranked percentage is 100000 > 100. -/
theorem ranking_percentage_counterexample :
    0 < (grandTotals [⟨"modela", 0, 0, 0, 1000, 0⟩, ⟨"modelb", 1, 0, 0, 0, 0⟩]).totalTokens ∧
    ∃ m ∈ (calculateRankings (fun _ => "unknown") (fun s => s) (fun s => s)
        [⟨"modela", 0, 0, 0, 1000, 0⟩, ⟨"modelb", 1, 0, 0, 0, 0⟩]).topModels,
      ¬ m.percentage ≤ 100 := by
  constructor
  · decide
  · have hlist : (calculateRankings (fun _ => "unknown") (fun s => s) (fun s => s)
        [⟨"modela", 0, 0, 0, 1000, 0⟩, ⟨"modelb", 1, 0, 0, 0, 0⟩]).topModels =
        [⟨"modela", "modela", "openai", 1000, (1000 : ℚ) / 1 * 100⟩,
         ⟨"modelb", "modelb", "openai", 1, (1 : ℚ) / 1 * 100⟩] := by
      norm_num [calculateRankings, modelStatsFold, modelStatsStep, accumulateModelUsage,
        updateModelUsage, addEventToUsage, emptyUsage, getEventTotal, grandTotals,
        addEventToGrand, resolveProviderId, jsStartsWith, bumpProviderCount, sortByCountDesc,
        List.insertionSort, List.orderedInsert]
    rw [hlist]
    refine ⟨⟨"modela", "modela", "openai", 1000, (1000 : ℚ) / 1 * 100⟩, by simp, by norm_num⟩

/-- C1 amended: when the grand total token count is positive (so the
percentage denominator equals the grand total) and every aggregated model
has a positive accumulated effective total (no ranked count comes from the
reasoning-only fallback branch), every ranked model and provider percentage
lies between 0 and 100. -/
theorem ranking_percentages_bounded
    (resolveProvider displayName providerDisplayName : String → String)
    (events : List CodexUsageEvent)
    (hpos : 0 < (grandTotals events).totalTokens)
    (hprimary : ∀ p ∈ accumulateModelUsage events, 0 < p.2.totalTokens) :
    (∀ m ∈ (calculateRankings resolveProvider displayName providerDisplayName events).topModels,
      0 ≤ m.percentage ∧ m.percentage ≤ 100) ∧
    (∀ q ∈ (calculateRankings resolveProvider displayName providerDisplayName events).topProviders,
      0 ≤ q.percentage ∧ q.percentage ≤ 100) := by
  obtain ⟨hcounts, hpsum⟩ :=
    modelStatsFold_counts resolveProvider displayName (accumulateModelUsage events) hprimary
  set D : ℕ := (grandTotals events).totalTokens with hD
  have hsum : ((modelStatsFold resolveProvider displayName
      (accumulateModelUsage events)).2.map ModelStats.count).sum = D := by
    rw [hcounts, sum_accumulateModelUsage]
  have hpsum' : ((modelStatsFold resolveProvider displayName
      (accumulateModelUsage events)).1.map Prod.snd).sum = D := by
    rw [hpsum, sum_accumulateModelUsage]
  have hfrac : ∀ c : ℕ, c ≤ D → 0 ≤ (c : ℚ) / D * 100 ∧ (c : ℚ) / D * 100 ≤ 100 := by
    intro c hc
    constructor
    · positivity
    · have h1 : (c : ℚ) / D ≤ 1 := by
        apply div_le_one_of_le₀
        · exact_mod_cast hc
        · positivity
      calc (c : ℚ) / D * 100 ≤ 1 * 100 := by
            exact mul_le_mul_of_nonneg_right h1 (by norm_num)
        _ = 100 := by norm_num
  constructor
  · intro m hm
    simp only [calculateRankings] at hm
    rw [List.mem_map] at hm
    obtain ⟨m₀, hm₀, hfm⟩ := hm
    have hmem : m₀ ∈ (modelStatsFold resolveProvider displayName
        (accumulateModelUsage events)).2 := by
      have h1 := List.take_subset 3 (sortByCountDesc ModelStats.count
        (modelStatsFold resolveProvider displayName (accumulateModelUsage events)).2) hm₀
      exact (List.perm_insertionSort _ _).subset h1
    have hcle : m₀.count ≤ D := by
      rw [← hsum]
      exact List.single_le_sum (fun x _ => Nat.zero_le x) _
        (List.mem_map_of_mem ModelStats.count hmem)
    have hpct : m.percentage = (m₀.count : ℚ) / D * 100 := by
      rw [← hfm]
      simp only [if_pos hpos, ← hD]
    rw [hpct]
    exact hfrac m₀.count hcle
  · intro q hq
    simp only [calculateRankings] at hq
    rw [List.mem_map] at hq
    obtain ⟨q₀, hq₀, hfq⟩ := hq
    have hmem : q₀ ∈ (modelStatsFold resolveProvider displayName
        (accumulateModelUsage events)).1 := by
      have h1 := List.take_subset 3 (sortByCountDesc Prod.snd
        (modelStatsFold resolveProvider displayName (accumulateModelUsage events)).1) hq₀
      exact (List.perm_insertionSort _ _).subset h1
    have hcle : q₀.2 ≤ D := by
      rw [← hpsum']
      exact List.single_le_sum (fun x _ => Nat.zero_le x) _
        (List.mem_map_of_mem Prod.snd hmem)
    have hpct : q.percentage = (q₀.2 : ℚ) / D * 100 := by
      rw [← hfq]
      simp only [if_pos hpos, ← hD]
    rw [hpct]
    exact hfrac q₀.2 hcle

/-- Witness for C1 (amended): one single-model event list with a populated
total gives a ranked percentage within bounds. -/
theorem ranking_percentages_bounded_witness :
    ∃ m ∈ (calculateRankings (fun _ => "openai") (fun s => s) (fun s => s)
        [⟨"gpt-5", 2, 0, 3, 0, 5⟩]).topModels,
      0 ≤ m.percentage ∧ m.percentage ≤ 100 := by
  have h := (ranking_percentages_bounded (fun _ => "openai") (fun s => s) (fun s => s)
    [⟨"gpt-5", 2, 0, 3, 0, 5⟩] (by decide) (by decide)).1
  have hne : (calculateRankings (fun _ => "openai") (fun s => s) (fun s => s)
      [⟨"gpt-5", 2, 0, 3, 0, 5⟩]).topModels ≠ [] := by
    norm_num [calculateRankings, modelStatsFold, modelStatsStep, accumulateModelUsage,
      updateModelUsage, addEventToUsage, emptyUsage, getEventTotal, grandTotals,
      addEventToGrand, resolveProviderId, jsStartsWith, bumpProviderCount, sortByCountDesc,
      List.insertionSort, List.orderedInsert]
  obtain ⟨m, hm⟩ := List.exists_mem_of_ne_nil _ hne
  exact ⟨m, hm, h m hm⟩

/-- Core bound of Hinnant's year-of-era computation: for a day-of-era `D`,
the computed year-of-era `Y` leaves a day-of-year between 0 and 365, and
day 365 occurs only when the following year-of-era is a leap year. -/
theorem cfd_core (D Y : ℤ) (h1 : 0 ≤ D) (h2 : D ≤ 146096)
    (hY : Y = (D - D / 1460 + D / 36524 - D / 146096) / 365)
    (h3 : 0 ≤ Y) (h4 : Y ≤ 399) :
    0 ≤ D - (365 * Y + Y / 4 - Y / 100) ∧ D - (365 * Y + Y / 4 - Y / 100) ≤ 365 ∧
    (D - (365 * Y + Y / 4 - Y / 100) = 365 →
      (Y + 1) % 4 = 0 ∧ ((Y + 1) % 100 ≠ 0 ∨ Y + 1 = 400)) := by
  interval_cases Y <;> omega

/-- The components of `civilFromDays` and their ranges, packaged for
arithmetic reasoning. -/
theorem cfd_facts (z : ℤ) :
    z = cfdEra z * 146097 + cfdDoe z - 719468 ∧
    cfdDoe z = 365 * cfdYoe z + cfdYoe z / 4 - cfdYoe z / 100 + cfdDoy z ∧
    0 ≤ cfdDoe z ∧ cfdDoe z ≤ 146096 ∧ 0 ≤ cfdYoe z ∧ cfdYoe z ≤ 399 ∧
    0 ≤ cfdDoy z ∧ cfdDoy z ≤ 365 ∧ 0 ≤ cfdMp z ∧ cfdMp z ≤ 11 ∧
    cfdMp z = (5 * cfdDoy z + 2) / 153 ∧
    (cfdDoy z = 365 → (cfdYoe z + 1) % 4 = 0 ∧ ((cfdYoe z + 1) % 100 ≠ 0 ∨ cfdYoe z + 1 = 400)) := by
  have hdoe : cfdDoe z = (z + 719468) % 146097 := rfl
  have hera : cfdEra z = (z + 719468) / 146097 := rfl
  have hyoe : cfdYoe z =
      (cfdDoe z - cfdDoe z / 1460 + cfdDoe z / 36524 - cfdDoe z / 146096) / 365 := rfl
  have hdoy : cfdDoy z = cfdDoe z - (365 * cfdYoe z + cfdYoe z / 4 - cfdYoe z / 100) := rfl
  have hmp : cfdMp z = (5 * cfdDoy z + 2) / 153 := rfl
  have hdoeb : 0 ≤ cfdDoe z ∧ cfdDoe z ≤ 146096 := by rw [hdoe]; omega
  have hyoeb : 0 ≤ cfdYoe z ∧ cfdYoe z ≤ 399 := by
    rw [hyoe]; obtain ⟨a, b⟩ := hdoeb; omega
  have hcore := cfd_core (cfdDoe z) (cfdYoe z) hdoeb.1 hdoeb.2 hyoe hyoeb.1 hyoeb.2
  refine ⟨by omega, by omega, hdoeb.1, hdoeb.2, hyoeb.1, hyoeb.2, ?_, ?_, ?_, ?_, hmp, ?_⟩
  · omega
  · omega
  · rw [hmp]; omega
  · rw [hmp]; omega
  · intro h
    exact hcore.2.2 (by omega)

/-- The civil triple of a day number has a month in 1..12 and a day in
1..31, and converting it back through `daysFromCivil` recovers the day
number (the two calendar conversions are mutually inverse). -/
theorem civilFromDays_spec (z : ℤ) :
    1 ≤ (civilFromDays z).2.1 ∧ (civilFromDays z).2.1 ≤ 12 ∧
    1 ≤ (civilFromDays z).2.2 ∧ (civilFromDays z).2.2 ≤ 31 ∧
    daysFromCivil (civilFromDays z).1 (civilFromDays z).2.1 (civilFromDays z).2.2 = z := by
  obtain ⟨hz, hD, hD0, hD1, hY0, hY1, hO0, hO1, hP0, hP1, hPdef, -⟩ := cfd_facts z
  by_cases hc : cfdMp z < 10
  · have hm3 : ¬ (cfdMp z + 3 ≤ 2) := by omega
    simp only [civilFromDays, if_pos hc, if_neg hm3, daysFromCivil]
    rw [show (cfdMp z + 3 + 9) % 12 = cfdMp z from by omega]
    rw [show (cfdYoe z + cfdEra z * 400) / 400 = cfdEra z from by omega]
    rw [show cfdYoe z + cfdEra z * 400 - cfdEra z * 400 = cfdYoe z from by ring]
    refine ⟨by omega, by omega, by omega, by omega, by omega⟩
  · have hm2 : cfdMp z - 9 ≤ 2 := by omega
    simp only [civilFromDays, if_neg hc, if_pos hm2, daysFromCivil]
    rw [show (cfdMp z - 9 + 9) % 12 = cfdMp z from by omega]
    rw [show (cfdYoe z + cfdEra z * 400 + 1 - 1) / 400 = cfdEra z from by omega]
    rw [show cfdYoe z + cfdEra z * 400 + 1 - 1 - cfdEra z * 400 = cfdYoe z from by ring]
    refine ⟨by omega, by omega, by omega, by omega, by omega⟩

/-- Two day numbers in the same civil year compare like their (month, day)
pairs: an earlier day number has a lexicographically smaller (month, day). -/
theorem civil_lex_of_lt (n₁ n₂ : ℤ) (h : n₁ < n₂)
    (hy : (civilFromDays n₁).1 = (civilFromDays n₂).1) :
    (civilFromDays n₁).2.1 < (civilFromDays n₂).2.1 ∨
      ((civilFromDays n₁).2.1 = (civilFromDays n₂).2.1 ∧
       (civilFromDays n₁).2.2 < (civilFromDays n₂).2.2) := by
  obtain ⟨hz₁, hD₁, hD₁0, hD₁1, hY₁0, hY₁1, hO₁0, hO₁1, hP₁0, hP₁1, hPdef₁, hleap₁⟩ := cfd_facts n₁
  obtain ⟨hz₂, hD₂, hD₂0, hD₂1, hY₂0, hY₂1, hO₂0, hO₂1, hP₂0, hP₂1, hPdef₂, hleap₂⟩ := cfd_facts n₂
  by_cases hc₁ : cfdMp n₁ < 10 <;> by_cases hc₂ : cfdMp n₂ < 10
  · have hm₁ : ¬ (cfdMp n₁ + 3 ≤ 2) := by omega
    have hm₂ : ¬ (cfdMp n₂ + 3 ≤ 2) := by omega
    simp only [civilFromDays, if_pos hc₁, if_pos hc₂, if_neg hm₁, if_neg hm₂] at hy ⊢
    have hEE : cfdEra n₁ = cfdEra n₂ := by omega
    have hYY : cfdYoe n₁ = cfdYoe n₂ := by omega
    have hq4 : cfdYoe n₁ / 4 = cfdYoe n₂ / 4 := by rw [hYY]
    have hq100 : cfdYoe n₁ / 100 = cfdYoe n₂ / 100 := by rw [hYY]
    have hDD : cfdDoe n₁ < cfdDoe n₂ := by omega
    have hOO : cfdDoy n₁ < cfdDoy n₂ := by omega
    have hPP : cfdMp n₁ ≤ cfdMp n₂ := by omega
    omega
  · -- n₁ in March..December, n₂ in January..February of the same civil
    -- year: impossible for n₁ < n₂.
    have hm₁ : ¬ (cfdMp n₁ + 3 ≤ 2) := by omega
    have hm₂ : cfdMp n₂ - 9 ≤ 2 := by omega
    simp only [civilFromDays, if_pos hc₁, if_neg hc₂, if_neg hm₁, if_pos hm₂] at hy ⊢
    exfalso
    have hO₁' : cfdDoy n₁ ≤ 305 := by omega
    have hO₂' : 306 ≤ cfdDoy n₂ := by omega
    have hsplit : (cfdEra n₁ = cfdEra n₂ ∧ cfdYoe n₁ = cfdYoe n₂ + 1) ∨
        (cfdEra n₁ = cfdEra n₂ + 1 ∧ cfdYoe n₁ = 0 ∧ cfdYoe n₂ = 399) := by omega
    rcases hsplit with ⟨hE, hY⟩ | ⟨hE, hY1, hY2⟩
    · have hstep : cfdDoy n₂ = 365 → 366 ≤
          (365 * cfdYoe n₁ + cfdYoe n₁ / 4 - cfdYoe n₁ / 100) -
          (365 * cfdYoe n₂ + cfdYoe n₂ / 4 - cfdYoe n₂ / 100) := by
        intro h365
        obtain ⟨ha, hb⟩ := hleap₂ h365
        omega
      have hstep' : 365 ≤ (365 * cfdYoe n₁ + cfdYoe n₁ / 4 - cfdYoe n₁ / 100) -
          (365 * cfdYoe n₂ + cfdYoe n₂ / 4 - cfdYoe n₂ / 100) := by omega
      omega
    · omega
  · -- n₁ in January..February, n₂ in March..December: months compare
    -- directly.
    have hm₁ : cfdMp n₁ - 9 ≤ 2 := by omega
    have hm₂ : ¬ (cfdMp n₂ + 3 ≤ 2) := by omega
    simp only [civilFromDays, if_neg hc₁, if_pos hc₂, if_pos hm₁, if_neg hm₂] at hy ⊢
    omega
  · have hm₁ : cfdMp n₁ - 9 ≤ 2 := by omega
    have hm₂ : cfdMp n₂ - 9 ≤ 2 := by omega
    simp only [civilFromDays, if_neg hc₁, if_neg hc₂, if_pos hm₁, if_pos hm₂] at hy ⊢
    have hEE : cfdEra n₁ = cfdEra n₂ := by omega
    have hYY : cfdYoe n₁ = cfdYoe n₂ := by omega
    have hq4 : cfdYoe n₁ / 4 = cfdYoe n₂ / 4 := by rw [hYY]
    have hq100 : cfdYoe n₁ / 100 = cfdYoe n₂ / 100 := by rw [hYY]
    have hDD : cfdDoe n₁ < cfdDoe n₂ := by omega
    have hOO : cfdDoy n₁ < cfdDoy n₂ := by omega
    have hPP : cfdMp n₁ ≤ cfdMp n₂ := by omega
    omega

/-- C3: weekday bucketing parses the daily-activity date key as a **UTC**
instant (`new Date("2024-01-07")` is UTC midnight) and then reads the
weekday in the local zone, so in a zone west of UTC (here UTC−05:00,
offset −300 minutes) the single event on Sunday 2024-01-07 lands in bucket
6 (Saturday) — not bucket 0 — and `mostActiveDay` becomes 6; only at
offset 0 does bucket 0 get incremented. This contradicts the claim (and
§4.5's local-calendar-parse requirement, which `findMostActiveDay` in the
same file follows). -/
theorem weekday_bucketing_utc_bug :
    weekdayCountsOf [("2024-01-07", 1)] (-300 * 60000) = [0, 0, 0, 0, 0, 0, 1] ∧
    (buildWeekdayActivity (weekdayCountsOf [("2024-01-07", 1)] (-300 * 60000))).mostActiveDay = 6 ∧
    weekdayCountsOf [("2024-01-07", 1)] 0 = [1, 0, 0, 0, 0, 0, 0] := by
  refine ⟨by decide, by decide, by decide⟩

/-- C4 counterexample: with activity running 2023-11-01..05 (the historical
maximum run, 5 days) and a trailing run 2023-12-30..2024-01-02 (4 days,
"today" being 2024-01-02), the year-2024 max streak is 2 while the current
streak — which walks the whole map backwards across the year boundary — is
4: the trailing run is not the historical maximum, yet maxStreak <
currentStreak. -/
theorem streaks_cross_year_counterexample :
    (calculateStreaks
        [("2023-11-01", 1), ("2023-11-02", 1), ("2023-11-03", 1), ("2023-11-04", 1),
         ("2023-11-05", 1), ("2023-12-30", 1), ("2023-12-31", 1), ("2024-01-01", 1),
         ("2024-01-02", 1)] 2024 (19724 * 86400000) 0).currentStreak <
      histMaxRun
        [("2023-11-01", 1), ("2023-11-02", 1), ("2023-11-03", 1), ("2023-11-04", 1),
         ("2023-11-05", 1), ("2023-12-30", 1), ("2023-12-31", 1), ("2024-01-01", 1),
         ("2024-01-02", 1)] ∧
    (calculateStreaks
        [("2023-11-01", 1), ("2023-11-02", 1), ("2023-11-03", 1), ("2023-11-04", 1),
         ("2023-11-05", 1), ("2023-12-30", 1), ("2023-12-31", 1), ("2024-01-01", 1),
         ("2024-01-02", 1)] 2024 (19724 * 86400000) 0).maxStreak <
      (calculateStreaks
        [("2023-11-01", 1), ("2023-11-02", 1), ("2023-11-03", 1), ("2023-11-04", 1),
         ("2023-11-05", 1), ("2023-12-30", 1), ("2023-12-31", 1), ("2024-01-01", 1),
         ("2024-01-02", 1)] 2024 (19724 * 86400000) 0).currentStreak := by
  constructor <;> decide

/-- The fuel of the digit printer is irrelevant once it exceeds the number. -/
theorem natToStringAux_eq : ∀ (n fuel : ℕ), n < fuel → natToStringAux fuel n = natDigits n := by
  intro n
  induction n using Nat.strong_induction_on with
  | _ n ih =>
    intro fuel hf
    cases fuel with
    | zero => omega
    | succ f =>
      by_cases h10 : n < 10
      · simp only [natToStringAux, if_pos h10, natDigits]
      · have hdiv : n / 10 < n := Nat.div_lt_self (by omega) (by omega)
        simp only [natToStringAux, if_neg h10, natDigits]
        rw [ih (n / 10) hdiv f (by omega), ih (n / 10) hdiv n hdiv]

/-- Unfolding the digit list of a number with at least two digits. -/
theorem natDigits_unfold_ge (n : ℕ) (h : ¬ n < 10) :
    natDigits n = natDigits (n / 10) ++ [Char.ofNat (48 + n % 10)] := by
  have hdiv : n / 10 < n := Nat.div_lt_self (by omega) (by omega)
  rw [natDigits, natToStringAux, if_neg h, natToStringAux_eq (n / 10) n hdiv]

/-- Digit characters decode to their digit. -/
theorem digitChar_toNat : ∀ k < 10, (Char.ofNat (48 + k)).toNat = 48 + k := by decide

/-- Every character printed for a number is a decimal digit. -/
theorem natDigits_digits (n : ℕ) : ∀ c ∈ natDigits n, 48 ≤ c.toNat ∧ c.toNat ≤ 57 := by
  induction n using Nat.strong_induction_on with
  | _ n ih =>
    intro c hc
    by_cases h10 : n < 10
    · rw [natDigits, natToStringAux, if_pos h10] at hc
      simp only [List.mem_singleton] at hc
      subst hc
      rw [digitChar_toNat n h10]
      omega
    · have hdiv : n / 10 < n := Nat.div_lt_self (by omega) (by omega)
      rw [natDigits_unfold_ge n h10] at hc
      rcases List.mem_append.mp hc with hc | hc
      · exact ih (n / 10) hdiv c hc
      · simp only [List.mem_singleton] at hc
        subst hc
        rw [digitChar_toNat (n % 10) (by omega)]
        omega

/-- The digit list is never empty. -/
theorem natDigits_ne_nil (n : ℕ) : natDigits n ≠ [] := by
  by_cases h10 : n < 10
  · rw [natDigits, natToStringAux, if_pos h10]
    simp
  · rw [natDigits_unfold_ge n h10]
    simp

/-- Folding the digit list back recovers the number. -/
theorem natDigits_val (n : ℕ) :
    (natDigits n).foldl (fun acc c => acc * 10 + (c.toNat - 48)) 0 = n := by
  induction n using Nat.strong_induction_on with
  | _ n ih =>
    by_cases h10 : n < 10
    · rw [natDigits, natToStringAux, if_pos h10]
      simp only [List.foldl_cons, List.foldl_nil]
      rw [digitChar_toNat n h10]
      omega
    · have hdiv : n / 10 < n := Nat.div_lt_self (by omega) (by omega)
      rw [natDigits_unfold_ge n h10, List.foldl_append]
      rw [ih (n / 10) hdiv]
      simp only [List.foldl_cons, List.foldl_nil]
      rw [digitChar_toNat (n % 10) (by omega)]
      omega

/-- Parsing the printed digits of a number gives the number back. -/
theorem digitsToNat?_natDigits (n : ℕ) : digitsToNat? (natDigits n) = some n := by
  rw [digitsToNat?, if_neg (natDigits_ne_nil n)]
  rw [if_pos]
  · rw [natDigits_val]
  · rw [List.all_eq_true]
    intro c hc
    obtain ⟨h1, h2⟩ := natDigits_digits n c hc
    simp [h1, h2]

/-- The decimal printer is injective. -/
theorem natDigits_inj (a b : ℕ) (h : natDigits a = natDigits b) : a = b := by
  have := digitsToNat?_natDigits a
  rw [h, digitsToNat?_natDigits b] at this
  injection this with this
  omega

/-- No printed digit is the separator `-`. -/
theorem natDigits_no_dash (n : ℕ) : ∀ c ∈ natDigits n, c ≠ '-' := by
  intro c hc hcontra
  obtain ⟨h1, -⟩ := natDigits_digits n c hc
  subst hcontra
  simp at h1

/-- The signed decimal printer is injective. -/
theorem intDigits_inj (a b : ℤ) (h : intDigits a = intDigits b) : a = b := by
  have hhead : ∀ n : ℕ, ∀ l, natDigits n ≠ '-' :: l := by
    intro n l hcontra
    have : '-' ∈ natDigits n := by rw [hcontra]; simp
    exact natDigits_no_dash n '-' this rfl
  rw [intDigits, intDigits] at h
  split_ifs at h with h₁ h₂ h₂
  · rw [List.cons_eq_cons] at h
    have := natDigits_inj _ _ h.2
    omega
  · exact absurd h.symm (hhead _ _)
  · exact absurd h (hhead _ _)
  · have := natDigits_inj _ _ h
    omega

/-- Padded months and days have exactly two characters. -/
theorem pad2_length : ∀ a < 100, (pad2 a).length = 2 := by decide

/-- The two-digit pad is injective below 100. -/
theorem pad2_inj : ∀ a < 100, ∀ b < 100, pad2 a = pad2 b → a = b := by decide

/-- The two-digit pad is strictly monotone below 100 in code-unit order. -/
theorem pad2_mono : ∀ a < 100, ∀ b < 100, a < b → charListLtB (pad2 a) (pad2 b) = true := by decide

/-- No padded digit is the separator `-`. -/
theorem pad2_no_dash : ∀ a < 100, ∀ c ∈ pad2 a, c ≠ '-' := by decide

/-- Parsing a padded two-digit number gives it back. -/
theorem pad2_val : ∀ a < 100, digitsToNat? (pad2 a) = some a := by decide

/-- Code-unit comparison is irreflexive. -/
theorem charListLtB_irrefl : ∀ l, charListLtB l l = false := by
  intro l
  induction l with
  | nil => rfl
  | cons a l ih => simp [charListLtB, ih]

/-- Code-unit comparison is asymmetric. -/
theorem charListLtB_asymm : ∀ l₁ l₂, charListLtB l₁ l₂ = true → charListLtB l₂ l₁ = false := by
  intro l₁
  induction l₁ with
  | nil => intro l₂ h; cases l₂ <;> simp [charListLtB] at h ⊢
  | cons a l ih =>
    intro l₂ h
    cases l₂ with
    | nil => simp [charListLtB] at h
    | cons b l₂ =>
      simp only [charListLtB] at h ⊢
      rcases lt_trichotomy a b with hab | hab | hab
      · simp only [if_pos hab] at h
        rw [if_neg (lt_asymm hab), if_pos hab]
      · subst hab
        simp only [if_neg (lt_irrefl a)] at h ⊢
        exact ih l₂ h
      · simp [if_neg (lt_asymm hab), if_pos hab] at h
    
/-- Mutually incomparable lists are equal. -/
theorem charListLtB_trichot : ∀ l₁ l₂, charListLtB l₁ l₂ = false → charListLtB l₂ l₁ = false →
    l₁ = l₂ := by
  intro l₁
  induction l₁ with
  | nil => intro l₂ h _; cases l₂ <;> simp [charListLtB] at h ⊢
  | cons a l ih =>
    intro l₂ h h'
    cases l₂ with
    | nil => simp [charListLtB] at h'
    | cons b l₂ =>
      simp only [charListLtB] at h h'
      rcases lt_trichotomy a b with hab | hab | hab
      · simp [if_pos hab] at h
      · subst hab
        simp only [if_neg (lt_irrefl a)] at h h'
        rw [ih l₂ h h']
      · simp [if_neg (lt_asymm hab), if_pos hab] at h'

/-- Code-unit comparison is transitive. -/
theorem charListLtB_trans : ∀ l₁ l₂ l₃, charListLtB l₁ l₂ = true → charListLtB l₂ l₃ = true →
    charListLtB l₁ l₃ = true := by
  intro l₁
  induction l₁ with
  | nil =>
    intro l₂ l₃ h h'
    cases l₂ with
    | nil => simp [charListLtB] at h
    | cons b l₂ => cases l₃ with
      | nil => simp [charListLtB] at h'
      | cons c l₃ => simp [charListLtB]
  | cons a l ih =>
    intro l₂ l₃ h h'
    cases l₂ with
    | nil => simp [charListLtB] at h
    | cons b l₂ =>
      cases l₃ with
      | nil => simp [charListLtB] at h'
      | cons c l₃ =>
        simp only [charListLtB] at h h' ⊢
        rcases lt_trichotomy a b with hab | hab | hab
        · rcases lt_trichotomy b c with hbc | hbc | hbc
          · have hac : a < c := lt_trans hab hbc
            rw [if_pos hac]
          · subst hbc; rw [if_pos hab]
          · simp [if_neg (lt_asymm hbc), if_pos hbc] at h'
        · subst hab
          rcases lt_trichotomy a c with hac | hac | hac
          · rw [if_pos hac]
          · subst hac
            simp only [if_neg (lt_irrefl a)] at h h' ⊢
            exact ih _ _ h h'
          · simp only [if_neg (lt_irrefl a)] at h
            simp [if_neg (lt_asymm hac), if_pos hac] at h'
        · simp [if_neg (lt_asymm hab), if_pos hab] at h

/-- A common left factor cancels in code-unit comparison. -/
theorem charListLtB_append_left : ∀ (p s t : List Char),
    charListLtB (p ++ s) (p ++ t) = charListLtB s t := by
  intro p
  induction p with
  | nil => intro s t; rfl
  | cons a p ih =>
    intro s t
    simp only [List.cons_append, charListLtB, if_neg (lt_irrefl a)]
    exact ih s t

/-- A strict comparison of equal-length left factors decides the whole
comparison. -/
theorem charListLtB_append_of_lt : ∀ (x y u v : List Char), x.length = y.length →
    charListLtB x y = true → charListLtB (x ++ u) (y ++ v) = true := by
  intro x
  induction x with
  | nil =>
    intro y u v hlen h
    cases y <;> simp [charListLtB] at h hlen
  | cons a x ih =>
    intro y u v hlen h
    cases y with
    | nil => simp [charListLtB] at h
    | cons b y =>
      simp only [List.length_cons, Nat.succ.injEq] at hlen
      simp only [List.cons_append, charListLtB] at h ⊢
      rcases lt_trichotomy a b with hab | hab | hab
      · rw [if_pos hab]
      · subst hab
        simp only [if_neg (lt_irrefl a)] at h ⊢
        exact ih y u v hlen h
      · simp [if_neg (lt_asymm hab), if_pos hab] at h

/-- The splitter never yields an empty list of pieces. -/
theorem splitOnDash_ne_nil : ∀ cs, splitOnDash cs ≠ [] := by
  intro cs
  cases cs with
  | nil => simp [splitOnDash]
  | cons c cs =>
    simp only [splitOnDash]
    split_ifs
    · simp
    · cases h : splitOnDash cs <;> simp

/-- Splitting after a dash-free left factor keeps the factor inside the
first piece. -/
theorem splitOnDash_no_dash : ∀ (a : List Char), (∀ c ∈ a, c ≠ '-') → ∀ cs,
    ∃ p rest, splitOnDash cs = p :: rest ∧ splitOnDash (a ++ cs) = (a ++ p) :: rest := by
  intro a
  induction a with
  | nil =>
    intro _ cs
    cases h : splitOnDash cs with
    | nil => exact absurd h (splitOnDash_ne_nil cs)
    | cons p rest => exact ⟨p, rest, rfl, by simp [h]⟩
  | cons c a ih =>
    intro hnd cs
    obtain ⟨p, rest, hsplit, happ⟩ := ih (fun x hx => hnd x (List.mem_cons_of_mem c hx)) cs
    refine ⟨p, rest, hsplit, ?_⟩
    have hc : c ≠ '-' := hnd c (List.mem_cons_self c a)
    simp only [List.cons_append, splitOnDash, if_neg hc, List.append_eq, happ]

/-- A dash-free character list splits to itself alone. -/
theorem splitOnDash_single (a : List Char) (h : ∀ c ∈ a, c ≠ '-') : splitOnDash a = [a] := by
  obtain ⟨p, rest, hs, ha⟩ := splitOnDash_no_dash a h []
  rw [List.append_nil] at ha
  simp only [splitOnDash] at hs
  cases hs
  simpa using ha

/-- A `A-B-C` character list with dash-free pieces splits into the three
pieces. -/
theorem splitOnDash_three (a b c : List Char) (ha : ∀ x ∈ a, x ≠ '-')
    (hb : ∀ x ∈ b, x ≠ '-') (hc : ∀ x ∈ c, x ≠ '-') :
    splitOnDash (a ++ '-' :: (b ++ '-' :: c)) = [a, b, c] := by
  have h1 := splitOnDash_single c hc
  have h2 : splitOnDash ('-' :: c) = [] :: [c] := by
    simp [splitOnDash, h1]
  obtain ⟨p, rest, hs, hbc⟩ := splitOnDash_no_dash b hb ('-' :: c)
  rw [h2] at hs
  cases hs
  have h3 : splitOnDash ('-' :: (b ++ '-' :: c)) = [] :: ((b ++ []) :: [c]) := by
    simp [splitOnDash, hbc]
  obtain ⟨p', rest', hs', hac⟩ := splitOnDash_no_dash a ha ('-' :: (b ++ '-' :: c))
  rw [h3] at hs'
  cases hs'
  rw [hac]
  simp

/-- A canonical day key with a positive civil year parses back (as a UTC
instant) to midnight of its own day number. -/
theorem parseDateKeyMs?_dayKey (n : ℤ) (hy : 1 ≤ yearOfDay n) :
    parseDateKeyMs? (dayKey n) = some (n * 86400000) := by
  obtain ⟨hm1, hm2, hd1, hd2, hrt⟩ := civilFromDays_spec n
  have hynn : ¬ ((civilFromDays n).1 < 0) := by
    have : yearOfDay n = (civilFromDays n).1 := rfl
    omega
  have hdata : (dayKey n).data =
      natDigits (civilFromDays n).1.toNat ++
        '-' :: (pad2 (civilFromDays n).2.1.toNat ++ '-' :: pad2 (civilFromDays n).2.2.toNat) := by
    show dayKeyChars n = _
    rw [dayKeyChars, formatCivil, intDigits, if_neg hynn]
  have hmlt : (civilFromDays n).2.1.toNat < 100 := by omega
  have hdlt : (civilFromDays n).2.2.toNat < 100 := by omega
  simp only [parseDateKeyMs?]
  rw [hdata, splitOnDash_three _ _ _ (natDigits_no_dash _) (pad2_no_dash _ hmlt)
    (pad2_no_dash _ hdlt)]
  simp only [List.map_cons, List.map_nil, digitsToNat?_natDigits, pad2_val _ hmlt,
    pad2_val _ hdlt]
  have hcy : ((civilFromDays n).1.toNat : ℤ) = (civilFromDays n).1 :=
    Int.toNat_of_nonneg (by omega)
  have hcm : ((civilFromDays n).2.1.toNat : ℤ) = (civilFromDays n).2.1 :=
    Int.toNat_of_nonneg (by omega)
  have hcd : ((civilFromDays n).2.2.toNat : ℤ) = (civilFromDays n).2.2 :=
    Int.toNat_of_nonneg (by omega)
  rw [hcy, hcm, hcd, hrt]

/-- The day number read back from a canonical key. -/
theorem keyDay_dayKey (n : ℤ) (hy : 1 ≤ yearOfDay n) : keyDay (dayKey n) = n := by
  rw [keyDay, parseDateKeyMs?_dayKey n hy]
  simp only [Option.getD_some]
  omega

/-- Distinct day numbers have distinct keys. -/
theorem dayKey_inj (a b : ℤ) (h : dayKey a = dayKey b) : a = b := by
  obtain ⟨ham1, ham2, had1, had2, hart⟩ := civilFromDays_spec a
  obtain ⟨hbm1, hbm2, hbd1, hbd2, hbrt⟩ := civilFromDays_spec b
  have hdata : dayKeyChars a = dayKeyChars b := congrArg String.data h
  rw [dayKeyChars, dayKeyChars, formatCivil, formatCivil] at hdata
  have hma : (civilFromDays a).2.1.toNat < 100 := by omega
  have hda : (civilFromDays a).2.2.toNat < 100 := by omega
  have hmb : (civilFromDays b).2.1.toNat < 100 := by omega
  have hdb : (civilFromDays b).2.2.toNat < 100 := by omega
  have hlen : ('-' :: (pad2 (civilFromDays a).2.1.toNat ++
        '-' :: pad2 (civilFromDays a).2.2.toNat)).length =
      ('-' :: (pad2 (civilFromDays b).2.1.toNat ++
        '-' :: pad2 (civilFromDays b).2.2.toNat)).length := by
    simp [pad2_length _ hma, pad2_length _ hda, pad2_length _ hmb, pad2_length _ hdb]
  obtain ⟨hyeq, hsuf⟩ := List.append_inj' hdata hlen
  have hyy : (civilFromDays a).1 = (civilFromDays b).1 := intDigits_inj _ _ hyeq
  rw [List.cons_eq_cons] at hsuf
  obtain ⟨hpm, hpd⟩ := List.append_inj hsuf.2 (by rw [pad2_length _ hma, pad2_length _ hmb])
  rw [List.cons_eq_cons] at hpd
  have hmm : (civilFromDays a).2.1 = (civilFromDays b).2.1 := by
    have := pad2_inj _ hma _ hmb hpm
    omega
  have hdd : (civilFromDays a).2.2 = (civilFromDays b).2.2 := by
    have := pad2_inj _ hda _ hdb hpd.2
    omega
  rw [← hart, hyy, hmm, hdd, hbrt]

/-- Same-year day keys compare in code-unit order exactly as their day
numbers: the earlier day has the smaller key. -/
theorem strLtB_dayKey_lt (a b : ℤ) (hy : yearOfDay a = yearOfDay b) (hab : a < b) :
    strLtB (dayKey a) (dayKey b) = true := by
  obtain ⟨ham1, ham2, had1, had2, -⟩ := civilFromDays_spec a
  obtain ⟨hbm1, hbm2, hbd1, hbd2, -⟩ := civilFromDays_spec b
  have hlex := civil_lex_of_lt a b hab hy
  have hma : (civilFromDays a).2.1.toNat < 100 := by omega
  have hda : (civilFromDays a).2.2.toNat < 100 := by omega
  have hmb : (civilFromDays b).2.1.toNat < 100 := by omega
  show charListLtB (dayKeyChars a) (dayKeyChars b) = true
  rw [dayKeyChars, dayKeyChars, formatCivil, formatCivil]
  have hyy : intDigits (civilFromDays a).1 = intDigits (civilFromDays b).1 := by
    rw [show (civilFromDays a).1 = (civilFromDays b).1 from hy]
  rw [hyy, charListLtB_append_left]
  simp only [charListLtB, if_neg (lt_irrefl '-')]
  rcases hlex with hm | ⟨hm, hd⟩
  · exact charListLtB_append_of_lt _ _ _ _
      (by rw [pad2_length _ hma, pad2_length _ hmb])
      (pad2_mono _ hma _ hmb (by omega))
  · have hmeq : pad2 (civilFromDays a).2.1.toNat = pad2 (civilFromDays b).2.1.toNat := by
      rw [show (civilFromDays a).2.1 = (civilFromDays b).2.1 from hm]
    rw [hmeq, charListLtB_append_left]
    simp only [charListLtB, if_neg (lt_irrefl '-')]
    exact pad2_mono _ hda _ (by omega) (by omega)

/-- Exact rounding: the rounded day quotient of a whole number of days. -/
theorem roundDiv_mul (a : ℤ) : roundDiv (a * 86400000) 86400000 = a := by
  rw [roundDiv]
  omega

/-- The best value only grows along the day-level loop. -/
theorem dayGo_ge_best : ∀ (l : List ℤ) (prev : ℤ) (temp best : ℕ),
    best ≤ dayGo prev temp best l := by
  intro l
  induction l with
  | nil => intro prev temp best; simp [dayGo]
  | cons d rest ih =>
    intro prev temp best
    simp only [dayGo]
    by_cases h : d - prev = 1
    · rw [if_pos h]
      exact le_trans (le_max_left best (temp + 1)) (ih d (temp + 1) (max best (temp + 1)))
    · rw [if_neg h]
      exact ih d 1 best

/-- The loop result dominates the run continuing through the current
position. -/
theorem dayGo_ge_chain : ∀ (l : List ℤ) (prev : ℤ) (temp best : ℕ), temp ≤ best →
    temp + csl prev l ≤ dayGo prev temp best l := by
  intro l
  induction l with
  | nil => intro prev temp best h; simpa [dayGo, csl] using h
  | cons d rest ih =>
    intro prev temp best h
    simp only [dayGo, csl]
    by_cases hd : d = prev + 1
    · rw [if_pos (by omega : d - prev = 1), if_pos hd]
      have := ih d (temp + 1) (max best (temp + 1)) (le_max_right best (temp + 1))
      omega
    · rw [if_neg (by omega : ¬ d - prev = 1), if_neg hd]
      have := dayGo_ge_best rest d 1 best
      omega

/-- The loop result dominates any run starting strictly inside the list. -/
theorem dayGo_ge_inner : ∀ (u : List ℤ) (d : ℤ) (rest : List ℤ) (prev : ℤ) (temp best : ℕ),
    1 ≤ best → 1 + csl d rest ≤ dayGo prev temp best (u ++ d :: rest) := by
  intro u
  induction u with
  | nil =>
    intro d rest prev temp best hb
    simp only [List.nil_append, dayGo]
    by_cases h : d - prev = 1
    · rw [if_pos h]
      have := dayGo_ge_chain rest d (temp + 1) (max best (temp + 1)) (le_max_right _ _)
      omega
    · rw [if_neg h]
      have := dayGo_ge_chain rest d 1 best hb
      omega
  | cons x u ih =>
    intro d rest prev temp best hb
    simp only [List.cons_append, dayGo]
    by_cases h : x - prev = 1
    · rw [if_pos h]
      exact ih d rest x (temp + 1) (max best (temp + 1)) (le_trans hb (le_max_left _ _))
    · rw [if_neg h]
      exact ih d rest x 1 best hb

/-- In a strictly increasing list, a block of consecutive successors of `b`
sits immediately after `b`. -/
theorem csl_of_chain : ∀ (K : ℕ) (u : List ℤ) (b : ℤ) (v : List ℤ) (full : List ℤ),
    full = u ++ b :: v → full.Pairwise (· < ·) →
    (∀ j : ℕ, 1 ≤ j → j ≤ K → b + (j : ℤ) ∈ full) → K ≤ csl b v := by
  intro K
  induction K with
  | zero => intro u b v full _ _ _; exact Nat.zero_le _
  | succ K ih =>
    intro u b v full hfull hpw hchain
    have hb1 : b + (1 : ℤ) ∈ full := by
      have := hchain 1 (by omega) (by omega)
      simpa using this
    subst hfull
    have hpair := List.pairwise_append.mp hpw
    cases v with
    | nil =>
      exfalso
      rcases List.mem_append.mp hb1 with hu | hb
      · have : b + 1 < b := hpair.2.2 _ hu b (by simp)
        omega
      · simp at hb
    | cons c v' =>
      have hbc : b < c := (List.pairwise_cons.mp hpair.2.1).1 c (by simp)
      have hceq : c = b + 1 := by
        rcases List.mem_append.mp hb1 with hu | hmem
        · have : b + 1 < b := hpair.2.2 _ hu b (by simp)
          omega
        · simp only [List.mem_cons] at hmem
          rcases hmem with h1 | h1 | h1
          · omega
          · omega
          · have hc := (List.pairwise_cons.mp (List.pairwise_cons.mp hpair.2.1).2).1 _ h1
            omega
      have hK : K ≤ csl c v' := by
        refine ih (u ++ [b]) c v' (u ++ b :: c :: v') (by simp) hpw ?_
        intro j h1 h2
        have hmem := hchain (j + 1) (by omega) (by omega)
        have harith : b + ((j + 1 : ℕ) : ℤ) = c + (j : ℤ) := by
          push_cast
          omega
        rwa [harith] at hmem
      rw [csl, if_pos hceq]
      omega

/-- A block of `L` consecutive active days forces a max-streak of at least
`L` over a strictly increasing day list. -/
theorem dayRunMax_ge_chain (days : List ℤ) (hpw : days.Pairwise (· < ·)) (A : ℤ) (L : ℕ)
    (hL : 0 < L) (hchain : ∀ j : ℕ, j < L → A - (j : ℤ) ∈ days) : L ≤ dayRunMax days := by
  have hBmem : A - ((L - 1 : ℕ) : ℤ) ∈ days := hchain (L - 1) (by omega)
  obtain ⟨u, v, huv⟩ := List.append_of_mem hBmem
  have hcsl : L - 1 ≤ csl (A - ((L - 1 : ℕ) : ℤ)) v := by
    refine csl_of_chain (L - 1) u _ v days huv hpw ?_
    intro j h1 h2
    have hmem := hchain (L - 1 - j) (by omega)
    have harith : A - ((L - 1 - j : ℕ) : ℤ) = A - ((L - 1 : ℕ) : ℤ) + (j : ℤ) := by
      have h1' : ((L - 1 - j : ℕ) : ℤ) = ((L - 1 : ℕ) : ℤ) - (j : ℤ) := by omega
      rw [h1']
      ring
    rwa [harith] at hmem
  cases u with
  | nil =>
    simp only [List.nil_append] at huv
    rw [huv, dayRunMax]
    have := dayGo_ge_chain v (A - ((L - 1 : ℕ) : ℤ)) 1 1 le_rfl
    omega
  | cons u₀ u' =>
    rw [huv, List.cons_append, dayRunMax]
    have := dayGo_ge_inner u' (A - ((L - 1 : ℕ) : ℤ)) v u₀ 1 1 le_rfl
    omega

/-- Retreating by one day retreats the local calendar day by one. -/
theorem localDayOf_sub_day (ms tz : ℤ) :
    localDayOf (ms - 24 * 60 * 60 * 1000) tz = localDayOf ms tz - 1 := by
  rw [localDayOf, localDayOf]
  omega

/-- The backwards walk returns its starting streak plus a block of earlier
consecutive days all present in the map. -/
theorem countBackLoop_chain (hasKey : String → Bool) (tz : ℤ) :
    ∀ (fuel : ℕ) (ms : ℤ) (s : ℕ), ∃ k : ℕ,
      countBackLoop hasKey tz fuel ms s = s + k ∧
      ∀ j : ℕ, 1 ≤ j → j ≤ k → hasKey (dayKey (localDayOf ms tz - (j : ℤ))) = true := by
  intro fuel
  induction fuel with
  | zero => intro ms s; exact ⟨0, rfl, by omega⟩
  | succ fuel ih =>
    intro ms s
    simp only [countBackLoop]
    by_cases h : hasKey (formatDateKeyMs (ms - 24 * 60 * 60 * 1000) tz) = true
    · obtain ⟨k, hk, hchain⟩ := ih (ms - 24 * 60 * 60 * 1000) (s + 1)
      refine ⟨k + 1, ?_, ?_⟩
      · rw [if_pos h, hk]
        omega
      · intro j h1 h2
        by_cases hj1 : j = 1
        · subst hj1
          have : formatDateKeyMs (ms - 24 * 60 * 60 * 1000) tz =
              dayKey (localDayOf ms tz - (1 : ℤ)) := by
            rw [formatDateKeyMs, localDayOf_sub_day]
          rwa [this] at h
        · have hc := hchain (j - 1) (by omega) (by omega)
          rw [localDayOf_sub_day] at hc
          have harith : localDayOf ms tz - 1 - ((j - 1 : ℕ) : ℤ) =
              localDayOf ms tz - (j : ℤ) := by omega
          rwa [harith] at hc
    · exact ⟨0, by rw [if_neg h]; omega, by omega⟩

/-- The max-streak loop over canonical same-year keys is the day-level loop
over their day numbers. -/
theorem streaksLoop_eq_dayGo (Y : ℤ) (hY : 1 ≤ Y) :
    ∀ (rest : List String) (pn : ℤ) (i : ℕ) (acc : StreakAcc), yearOfDay pn = Y →
    (∀ k ∈ rest, ∃ day : ℤ, k = dayKey day ∧ yearOfDay day = Y) →
    (streaksLoop (dayKey pn) i acc rest).maxStreak =
      dayGo pn acc.tempStreak acc.maxStreak (rest.map keyDay) := by
  intro rest
  induction rest with
  | nil => intro pn i acc _ _; simp [streaksLoop, dayGo]
  | cons k rest ih =>
    intro pn i acc hpy hcanon
    obtain ⟨cn, rfl, hcy⟩ := hcanon k (List.mem_cons_self k rest)
    have hdiff : diffDaysIsOne (dayKey pn) (dayKey cn) = ((cn - pn == 1) : Bool) := by
      rw [diffDaysIsOne]
      rw [parseDateKeyMs?_dayKey pn (by omega), parseDateKeyMs?_dayKey cn (by omega)]
      show (roundDiv (cn * 86400000 - pn * 86400000) 86400000 == 1) = ((cn - pn == 1) : Bool)
      have harith : cn * 86400000 - pn * 86400000 = (cn - pn) * 86400000 := by ring
      rw [harith, roundDiv_mul]
    have hkd : keyDay (dayKey cn) = cn := keyDay_dayKey cn (by omega)
    have hrest : ∀ k' ∈ rest, ∃ day : ℤ, k' = dayKey day ∧ yearOfDay day = Y :=
      fun k' hk' => hcanon k' (List.mem_cons_of_mem _ hk')
    simp only [streaksLoop, List.map_cons, hkd, dayGo, hdiff]
    by_cases hd : cn - pn = 1
    · rw [if_pos (by simpa using hd), if_pos hd]
      by_cases hgt : acc.tempStreak + 1 > acc.maxStreak
      · rw [if_pos hgt]
        rw [ih cn (i + 1) ⟨acc.tempStreak + 1, acc.tempStreakStart, acc.tempStreak + 1,
          acc.tempStreakStart, i⟩ hcy hrest]
        have : max acc.maxStreak (acc.tempStreak + 1) = acc.tempStreak + 1 := by omega
        rw [this]
      · rw [if_neg hgt]
        rw [ih cn (i + 1) { acc with tempStreak := acc.tempStreak + 1 } hcy hrest]
        have : max acc.maxStreak (acc.tempStreak + 1) = acc.maxStreak := by omega
        rw [this]
    · rw [if_neg (by simpa using hd), if_neg hd]
      exact ih cn (i + 1) { acc with tempStreak := 1, tempStreakStart := i } hcy hrest

/-- The JavaScript sort is a permutation. -/
theorem jsSortStrings_perm (l : List String) : (jsSortStrings l).Perm l :=
  List.perm_insertionSort _ l

/-- Incomparable strings are equal. -/
theorem strLtB_trichot (a b : String) (h1 : strLtB a b = false) (h2 : strLtB b a = false) :
    a = b := by
  apply String.ext
  exact charListLtB_trichot _ _ h1 h2

/-- The JavaScript sort yields an ascending list. -/
theorem jsSortStrings_sorted (l : List String) :
    List.Sorted (fun a b : String => strLtB b a = false) (jsSortStrings l) := by
  haveI htot : IsTotal String (fun a b : String => strLtB b a = false) := by
    constructor
    intro a b
    cases h : strLtB b a
    · exact Or.inl rfl
    · exact Or.inr (charListLtB_asymm _ _ h)
  haveI htrans : IsTrans String (fun a b : String => strLtB b a = false) := by
    constructor
    intro a b c hab hbc
    cases hca : strLtB c a
    · rfl
    · exfalso
      cases hba : strLtB a b
      · have heq : a = b := strLtB_trichot a b hba hab
        subst heq
        rw [hca] at hbc
        simp at hbc
      · have hca' : charListLtB c.data a.data = true := hca
        have hba' : charListLtB a.data b.data = true := hba
        have hcb : charListLtB c.data b.data = true := charListLtB_trans _ _ _ hca' hba'
        have hbc' : charListLtB c.data b.data = false := hbc
        rw [hcb] at hbc'
        simp at hbc'
  exact List.sorted_insertionSort _ l

/-- `Map.has` over the association list: a key is found exactly when it is
among the map's keys. -/
theorem lookup_isSome_iff (l : List (String × ℕ)) (k : String) :
    (l.lookup k).isSome = true ↔ k ∈ l.map Prod.fst := by
  induction l with
  | nil => simp [List.lookup]
  | cons p rest ih =>
    obtain ⟨k', v⟩ := p
    by_cases h : k = k'
    · subst h
      simp [List.lookup]
    · have hbeq : (k == k') = false := by simp [h]
      simp only [List.lookup, hbeq, List.map_cons, List.mem_cons]
      rw [ih]
      constructor
      · exact Or.inr
      · rintro (rfl | hmem)
        · exact absurd rfl h
        · exact hmem

/-- Sorted distinct strings are pairwise strictly increasing. -/
theorem jsSortStrings_pairwise_lt (l : List String) (hnd : l.Nodup) :
    (jsSortStrings l).Pairwise (fun a b => strLtB a b = true) := by
  have hs := jsSortStrings_sorted l
  have hnd' : (jsSortStrings l).Nodup := ((jsSortStrings_perm l).nodup_iff).mpr hnd
  have hcomb := hs.and hnd'
  refine hcomb.imp ?_
  intro a b hab
  cases h : strLtB a b
  · exact absurd (strLtB_trichot a b h hab.1) hab.2
  · rfl

/-- A canonical key of the target year passes the `startsWith(String(year))`
filter. -/
theorem canonical_startsWith (year day : ℤ) (hy : yearOfDay day = year) :
    jsStartsWith (dayKey day) (intToString year) = true := by
  rw [jsStartsWith]
  have hdata : (dayKey day).data = intDigits year ++
      ('-' :: (pad2 (civilFromDays day).2.1.toNat ++ '-' :: pad2 (civilFromDays day).2.2.toNat)) := by
    show dayKeyChars day = _
    rw [dayKeyChars, formatCivil, show (civilFromDays day).1 = year from hy]
  rw [hdata]
  rw [List.isPrefixOf_iff_prefix]
  exact List.prefix_append _ _

/-- Same-year keys compare in code-unit order only when their day numbers
do. -/
theorem keyLt_day_lt (Y a b : ℤ) (hya : yearOfDay a = Y) (hyb : yearOfDay b = Y)
    (h : strLtB (dayKey a) (dayKey b) = true) : a < b := by
  rcases lt_trichotomy a b with hlt | heq | hgt
  · exact hlt
  · subst heq
    have hirr : strLtB (dayKey a) (dayKey a) = false := charListLtB_irrefl _
    rw [hirr] at h
    simp at h
  · have hba := strLtB_dayKey_lt b a (by rw [hya, hyb]) hgt
    have hthis : charListLtB (dayKey a).data (dayKey b).data = false :=
      charListLtB_asymm _ _ hba
    have h' : charListLtB (dayKey a).data (dayKey b).data = true := h
    rw [hthis] at h'
    simp at h'

/-- C4 amended: for a daily-activity map whose keys are distinct canonical
date keys of the (positive) target year, the max streak dominates the
current streak whenever the trailing run anchoring the current streak is
not the historical maximum run (the bound in fact holds without the
guard). The original claim fails only for maps holding keys outside the
target year, which the cross-year counterexample exhibits. -/
theorem streaks_max_ge_current (dailyActivity : List (String × ℕ)) (year nowMs tzOffsetMs : ℤ)
    (hyear : 1 ≤ year)
    (hnodup : (dailyActivity.map Prod.fst).Nodup)
    (hcanon : ∀ k ∈ dailyActivity.map Prod.fst, ∃ day : ℤ, k = dayKey day ∧ yearOfDay day = year)
    (hguard : (calculateStreaks dailyActivity year nowMs tzOffsetMs).currentStreak <
      histMaxRun dailyActivity) :
    (calculateStreaks dailyActivity year nowMs tzOffsetMs).currentStreak ≤
      (calculateStreaks dailyActivity year nowMs tzOffsetMs).maxStreak := by
  clear hguard
  have hfilter : (dailyActivity.map Prod.fst).filter
      (fun date => jsStartsWith date (intToString year)) = dailyActivity.map Prod.fst := by
    apply List.filter_eq_self.mpr
    intro k hk
    obtain ⟨day, rfl, hy⟩ := hcanon k hk
    exact canonical_startsWith year day hy
  simp only [calculateStreaks, hfilter]
  cases hAD : jsSortStrings (dailyActivity.map Prod.fst) with
  | nil => simp
  | cons first rest =>
    simp only []
    have hmemAD : ∀ k, k ∈ first :: rest → k ∈ dailyActivity.map Prod.fst := by
      intro k hk
      rw [← hAD] at hk
      exact ((jsSortStrings_perm (dailyActivity.map Prod.fst)).mem_iff).mp hk
    have hcanonAD : ∀ k ∈ first :: rest, ∃ day : ℤ, k = dayKey day ∧ yearOfDay day = year :=
      fun k hk => hcanon k (hmemAD k hk)
    obtain ⟨fn, hfirst, hfy⟩ := hcanonAD first (List.mem_cons_self _ _)
    have hpws : (first :: rest).Pairwise (fun a b => strLtB a b = true) := by
      have := jsSortStrings_pairwise_lt (dailyActivity.map Prod.fst) hnodup
      rwa [hAD] at this
    have hpwdays : ((first :: rest).map keyDay).Pairwise (· < ·) := by
      rw [List.pairwise_map]
      refine List.Pairwise.imp_of_mem ?_ hpws
      intro a b ha hb hab
      obtain ⟨na, rfl, hnay⟩ := hcanonAD a ha
      obtain ⟨nb, rfl, hnby⟩ := hcanonAD b hb
      rw [keyDay_dayKey na (by omega), keyDay_dayKey nb (by omega)]
      exact keyLt_day_lt year na nb hnay hnby hab
    have hrest : ∀ k ∈ rest, ∃ day : ℤ, k = dayKey day ∧ yearOfDay day = year :=
      fun k hk => hcanonAD k (List.mem_cons_of_mem _ hk)
    have hbridge : (streaksLoop first 1 ⟨1, 0, 1, 0, 0⟩ rest).maxStreak =
        dayGo fn 1 1 (rest.map keyDay) := by
      rw [hfirst]
      exact streaksLoop_eq_dayGo year hyear rest fn 1 ⟨1, 0, 1, 0, 0⟩ hfy hrest
    have hkfirst : keyDay first = fn := by
      rw [hfirst]
      exact keyDay_dayKey fn (by omega)
    have hdaymem : ∀ c : ℤ, (List.lookup (dayKey c) dailyActivity).isSome = true →
        c ∈ (first :: rest).map keyDay := by
      intro c hc
      have hmem : dayKey c ∈ dailyActivity.map Prod.fst := (lookup_isSome_iff _ _).mp hc
      obtain ⟨n, heq, hny⟩ := hcanon _ hmem
      have hcn : c = n := dayKey_inj c n heq
      subst hcn
      have hmem' : dayKey c ∈ first :: rest := by
        rw [← hAD]
        exact ((jsSortStrings_perm (dailyActivity.map Prod.fst)).mem_iff).mpr hmem
      have hkc : keyDay (dayKey c) = c := keyDay_dayKey c (by omega)
      rw [← hkc]
      exact List.mem_map_of_mem keyDay hmem'
    have hmain : ∀ startMs : ℤ,
        (List.lookup (dayKey (localDayOf startMs tzOffsetMs)) dailyActivity).isSome = true →
        countStreakBackwards dailyActivity startMs tzOffsetMs ≤
          (streaksLoop first 1 ⟨1, 0, 1, 0, 0⟩ rest).maxStreak := by
      intro startMs hanchor
      obtain ⟨k, hk, hchain⟩ := countBackLoop_chain
        (fun key => (List.lookup key dailyActivity).isSome) tzOffsetMs
        (dailyActivity.length + 1) startMs 1
      rw [countStreakBackwards, hk]
      have hrun := dayRunMax_ge_chain ((first :: rest).map keyDay) hpwdays
        (localDayOf startMs tzOffsetMs) (1 + k) (by omega) ?_
      · simp only [List.map_cons] at hrun
        rw [dayRunMax] at hrun
        rw [hkfirst] at hrun
        omega
      · intro j hj
        by_cases hj0 : j = 0
        · subst hj0
          simpa using hdaymem (localDayOf startMs tzOffsetMs) hanchor
        · exact hdaymem _ (hchain j (by omega) (by omega))
    split_ifs with h₁ h₂
    · exact hmain nowMs h₁
    · exact hmain (nowMs - 24 * 60 * 60 * 1000) h₂
    · exact Nat.zero_le _

/-- Witness for C4 (amended): four canonical 2024 keys (a three-day run and
an isolated day), evaluated long after the last key, satisfy every
hypothesis and the bound. -/
theorem streaks_max_ge_current_witness :
    (calculateStreaks [("2024-01-05", 1), ("2024-01-06", 1), ("2024-01-07", 1), ("2024-03-10", 1)]
        2024 (19875 * 86400000) 0).currentStreak ≤
      (calculateStreaks [("2024-01-05", 1), ("2024-01-06", 1), ("2024-01-07", 1), ("2024-03-10", 1)]
        2024 (19875 * 86400000) 0).maxStreak := by
  apply streaks_max_ge_current
  · decide
  · decide
  · intro k hk
    simp only [List.map_cons, List.map_nil, List.mem_cons, List.not_mem_nil, or_false] at hk
    rcases hk with rfl | rfl | rfl | rfl
    · exact ⟨19727, by decide, by decide⟩
    · exact ⟨19728, by decide, by decide⟩
    · exact ⟨19729, by decide, by decide⟩
    · exact ⟨19792, by decide, by decide⟩
  · decide
